import Mathlib

/-!
Verification of the event-driven backtesting core of `thats_my_quantv1`.

The Python sources under `backtester/` are shallowly embedded:
* monetary amounts, prices and share quantities (Python `float`) become `ℚ`;
* dates become `ℤ` (a day number; `(a - b).days` becomes `a - b`);
* `uuid4` identifiers become `ℕ` drawn from a fresh-id counter on the
  `Portfolio` (modelling the uniqueness of generated uuids);
* Python `dict` (insertion ordered) becomes an insertion-ordered
  association list;
* functions that can raise (`ValueError`, `KeyError`, `ZeroDivisionError`)
  return `Except String`; in every embedded operation the source performs
  no state mutation before any of its raise points, so an `Except`-style
  result with the untouched input state is exact.
-/

namespace ThatsMyQuant

/-- Embeds `TransactionCost.__init__` (transactioncost.py). -/
structure TransactionCost where
  commission : ℚ
  slippage_pct : ℚ
deriving Repr, DecidableEq

/-- The value computed by `TransactionCost.calculate_entry_cost` on valid
inputs: `base_cost + slippage_cost + commission`. -/
def TransactionCost.entryCostVal (tc : TransactionCost) (shares price : ℚ) : ℚ :=
  shares * price + shares * price * tc.slippage_pct + tc.commission

/-- The value computed by `TransactionCost.calculate_exit_value` on valid
inputs: `gross_proceeds - slippage_cost - commission`. -/
def TransactionCost.exitValueVal (tc : TransactionCost) (shares price : ℚ) : ℚ :=
  shares * price - shares * price * tc.slippage_pct - tc.commission

/-- Embeds `TransactionCost.calculate_entry_cost` including its
`ValueError` raises for non-positive shares or price. -/
def TransactionCost.calculate_entry_cost (tc : TransactionCost) (shares price : ℚ) :
    Except String ℚ :=
  if shares ≤ 0 then Except.error "Shares must be positive"
  else if price ≤ 0 then Except.error "Price must be positive"
  else Except.ok (tc.entryCostVal shares price)

/-- Embeds `TransactionCost.calculate_exit_value` including its
`ValueError` raises for non-positive shares or price. -/
def TransactionCost.calculate_exit_value (tc : TransactionCost) (shares price : ℚ) :
    Except String ℚ :=
  if shares ≤ 0 then Except.error "Shares must be positive"
  else if price ≤ 0 then Except.error "Price must be positive"
  else Except.ok (tc.exitValueVal shares price)

/-- The four transaction types of transaction.py (`open` is a Lean keyword,
hence the `Tx` suffix on each constructor). -/
inductive TxType where
  | openTx
  | addTx
  | reduceTx
  | closeTx
deriving Repr, DecidableEq

/-- Entry transaction types (`["open", "add"]` in roundtrip.py). -/
def TxType.isEntry : TxType → Bool
  | .openTx => true
  | .addTx => true
  | _ => false

/-- Exit transaction types (`["reduce", "close"]` in roundtrip.py). -/
def TxType.isExit : TxType → Bool
  | .reduceTx => true
  | .closeTx => true
  | _ => false

/-- Embeds the frozen dataclass `Transaction` (transaction.py). -/
structure Transaction where
  id : ℕ
  roundtrip_id : ℕ
  ticker : String
  date : ℤ
  transaction_type : TxType
  shares : ℚ
  price : ℚ
  net_amount : ℚ
  reason : String
deriving Repr, DecidableEq

/-- Embeds the `ExitRule` class hierarchy of exitrule.py as a closed sum.
`compositeExitRule` carries the ordered `(rule, exit_portion)` slots. -/
inductive ExitRule where
  | timeBasedExit (holding_days : ℤ)
  | stopLossExit (stop_pct : ℚ)
  | trailingStopExit (trailing_pct : ℚ)
  | profitTargetExit (target_pct : ℚ) (exit_portion : ℚ)
  | compositeExitRule (rules : List (ExitRule × ℚ))

/-- Embeds `CompositeExitRule.__init__`, which raises `ValueError` on an
empty rule list. -/
def mkCompositeExitRule (rules : List (ExitRule × ℚ)) : Except String ExitRule :=
  if rules.isEmpty then Except.error "CompositeExitRule requires at least one rule"
  else Except.ok (ExitRule.compositeExitRule rules)

/-- The `TrailingStopExit._peak_prices` side table: roundtrip id to peak
price. -/
def PeakMap : Type := ℕ → Option ℚ

/-- Point update of a peak table (`self._peak_prices[rt_id] = v`). -/
def pmInsert (pm : PeakMap) (k : ℕ) (v : ℚ) : PeakMap :=
  fun j => if j = k then some v else pm j

/-- Signal metadata, modelled by the parts the engine reads downstream:
the calculated values and the optional per-signal exit-rule override
(`signal.metadata.get('exit_rule', ...)` in backtester.py). -/
structure SignalMeta where
  values : List (String × ℚ)
  exit_rule : Option ExitRule

/-- Embeds the dataclass `RoundTrip` (roundtrip.py). `total_cost` and
`total_proceeds` are the stored `_total_cost` / `_total_proceeds`. -/
structure RoundTrip where
  id : ℕ
  ticker : String
  transactions : List Transaction
  exit_rule : ExitRule
  entry_signal_metadata : SignalMeta
  total_cost : ℚ
  total_proceeds : ℚ

/-- Embeds `RoundTrip.add_transaction`. -/
def RoundTrip.add_transaction (rt : RoundTrip) (txn : Transaction) : RoundTrip :=
  { rt with
    transactions := rt.transactions ++ [txn]
    total_cost := if txn.transaction_type.isEntry then rt.total_cost + |txn.net_amount| else rt.total_cost
    total_proceeds := if txn.transaction_type.isEntry then rt.total_proceeds else rt.total_proceeds + txn.net_amount }

/-- Embeds the `RoundTrip.total_shares` property. -/
def RoundTrip.total_shares (rt : RoundTrip) : ℚ :=
  ((rt.transactions.filter fun t => t.transaction_type.isEntry).map fun t => t.shares).sum

/-- Embeds the `RoundTrip.remaining_shares` property:
entry shares minus exit shares. -/
def RoundTrip.remaining_shares (rt : RoundTrip) : ℚ :=
  ((rt.transactions.filter fun t => t.transaction_type.isEntry).map fun t => t.shares).sum
    - ((rt.transactions.filter fun t => t.transaction_type.isExit).map fun t => t.shares).sum

/-- Embeds the `RoundTrip.is_open` property. -/
def RoundTrip.is_open (rt : RoundTrip) : Bool :=
  decide (0 < rt.remaining_shares)

/-- Embeds the `RoundTrip.average_entry_price` property. -/
def RoundTrip.average_entry_price (rt : RoundTrip) : ℚ :=
  if rt.total_shares = 0 then 0 else rt.total_cost / rt.total_shares

/-- Embeds the `RoundTrip.realized_pnl` property. -/
def RoundTrip.realized_pnl (rt : RoundTrip) : ℚ :=
  rt.total_proceeds - rt.total_cost

/-- Embeds `RoundTrip.get_holding_days`: days since the earliest
transaction date, `0` for an empty transaction list. -/
def RoundTrip.get_holding_days (rt : RoundTrip) (current_date : ℤ) : ℤ :=
  match rt.transactions.map fun t => t.date with
  | [] => 0
  | d :: ds => current_date - ds.foldl min d

mutual

/-- Embeds `ExitRule.should_exit` dispatch over the rule hierarchy
(exitrule.py).  The trailing-stop peak table is threaded explicitly;
rules other than `TrailingStopExit` leave it untouched. -/
def ExitRule.should_exit : ExitRule → PeakMap → RoundTrip → ℤ → ℚ →
    ((Bool × ℚ × String) × PeakMap)
  | .timeBasedExit holding_days, pm, rt, d, _ =>
    if rt.get_holding_days d ≥ holding_days then ((true, 1, "time_exit"), pm)
    else ((false, 0, ""), pm)
  | .stopLossExit stop_pct, pm, rt, _, price =>
    let avg_entry := rt.average_entry_price
    if avg_entry ≤ 0 then ((false, 0, ""), pm)
    else if (price - avg_entry) / avg_entry ≤ -stop_pct then ((true, 1, "stop_loss"), pm)
    else ((false, 0, ""), pm)
  | .trailingStopExit trailing_pct, pm, rt, _, price =>
    let pm1 : PeakMap :=
      match pm rt.id with
      | none => pmInsert pm rt.id rt.average_entry_price
      | some _ => pm
    let pm2 : PeakMap :=
      match pm1 rt.id with
      | some pk => if price > pk then pmInsert pm1 rt.id price else pm1
      | none => pm1
    match pm2 rt.id with
    | none => ((false, 0, ""), pm2)
    | some peak =>
      if peak ≤ 0 then ((false, 0, ""), pm2)
      else if (peak - price) / peak ≥ trailing_pct then ((true, 1, "trailing_stop"), pm2)
      else ((false, 0, ""), pm2)
  | .profitTargetExit target_pct exit_portion, pm, rt, _, price =>
    let avg_entry := rt.average_entry_price
    if avg_entry ≤ 0 then ((false, 0, ""), pm)
    else if (price - avg_entry) / avg_entry ≥ target_pct then
      ((true, exit_portion, "profit_target"), pm)
    else ((false, 0, ""), pm)
  | .compositeExitRule rules, pm, rt, d, price =>
    ExitRule.should_exit_list rules pm rt d price

/-- Embeds the sub-rule loop of `CompositeExitRule.should_exit`: first
firing rule wins, its portion replaced by the slot portion; rules after
the firing one are not evaluated. -/
def ExitRule.should_exit_list : List (ExitRule × ℚ) → PeakMap → RoundTrip → ℤ → ℚ →
    ((Bool × ℚ × String) × PeakMap)
  | [], pm, _, _, _ => ((false, 0, ""), pm)
  | (rule, portion) :: rest, pm, rt, d, price =>
    let res := rule.should_exit pm rt d price
    if res.1.1 then ((true, portion, res.1.2.2), res.2)
    else ExitRule.should_exit_list rest res.2 rt d price

end

/-- Embeds the `Portfolio` class state (portfolio.py).  `next_id` models
the supply of fresh uuids. -/
structure Portfolio where
  starting_capital : ℚ
  cash : ℚ
  max_positions : ℤ
  transaction_cost : TransactionCost
  fractional_shares : Bool
  open_roundtrips : List (ℕ × RoundTrip)
  closed_roundtrips : List RoundTrip
  transaction_log : List Transaction
  equity_history : List (ℤ × ℚ)
  next_id : ℕ

/-- Embeds `Portfolio.__init__`. -/
def mkPortfolio (starting_capital : ℚ) (max_positions : ℤ)
    (transaction_cost : TransactionCost) (fractional_shares : Bool) : Portfolio :=
  { starting_capital := starting_capital
    cash := starting_capital
    max_positions := max_positions
    transaction_cost := transaction_cost
    fractional_shares := fractional_shares
    open_roundtrips := []
    closed_roundtrips := []
    transaction_log := []
    equity_history := []
    next_id := 0 }

/-- Keyed lookup in the insertion-ordered `open_roundtrips` dict. -/
def lookupRT : List (ℕ × RoundTrip) → ℕ → Option RoundTrip
  | [], _ => none
  | (k, v) :: rest, rid => if k = rid then some v else lookupRT rest rid

/-- In-place value update of the `open_roundtrips` dict (Python mutates
the stored `RoundTrip` object, so dict order is unchanged). -/
def updateRT : List (ℕ × RoundTrip) → ℕ → RoundTrip → List (ℕ × RoundTrip)
  | [], _, _ => []
  | (k, v) :: rest, rid, rt =>
    if k = rid then (k, rt) :: rest else (k, v) :: updateRT rest rid rt

/-- Key deletion from the `open_roundtrips` dict (`del` preserves the
order of the remaining keys). -/
def eraseRT (l : List (ℕ × RoundTrip)) (rid : ℕ) : List (ℕ × RoundTrip) :=
  l.filter fun p => p.1 ≠ rid

/-- Embeds `Portfolio.can_open_position`. -/
def Portfolio.can_open_position (pf : Portfolio) : Bool :=
  decide ((pf.open_roundtrips.length : ℤ) < pf.max_positions)

/-- Python `int()` truncation toward zero, used by `_round_shares`. -/
def pyTruncInt (q : ℚ) : ℤ :=
  if q < 0 then ⌈q⌉ else ⌊q⌋

/-- Embeds `Portfolio._round_shares`. -/
def Portfolio.round_shares (pf : Portfolio) (shares : ℚ) : ℚ :=
  if pf.fractional_shares then shares else (pyTruncInt shares : ℚ)

/-- Embeds `Portfolio.record_equity`. -/
def Portfolio.record_equity (pf : Portfolio) (d : ℤ) (value : ℚ) : Portfolio :=
  { pf with equity_history := pf.equity_history ++ [(d, value)] }

/-- Embeds `Portfolio.open_position`.  `Except.ok (none, pf)` is the
sentinel refusal (Python `return None`) with the state unchanged. -/
def Portfolio.open_position (pf : Portfolio) (ticker : String) (d : ℤ)
    (price shares0 : ℚ) (exit_rule : ExitRule) (signal_metadata : SignalMeta) :
    Except String (Option RoundTrip × Portfolio) :=
  let shares := pf.round_shares shares0
  if shares ≤ 0 then Except.ok (none, pf)
  else if ¬ pf.can_open_position then Except.ok (none, pf)
  else
    match pf.transaction_cost.calculate_entry_cost shares price with
    | Except.error e => Except.error e
    | Except.ok entry_cost =>
      if entry_cost > pf.cash then Except.ok (none, pf)
      else
        let roundtrip_id := pf.next_id
        let txn : Transaction :=
          { id := pf.next_id + 1
            roundtrip_id := roundtrip_id
            ticker := ticker
            date := d
            transaction_type := TxType.openTx
            shares := shares
            price := price
            net_amount := -entry_cost
            reason := "signal" }
        let roundtrip : RoundTrip :=
          RoundTrip.add_transaction
            { id := roundtrip_id
              ticker := ticker
              transactions := []
              exit_rule := exit_rule
              entry_signal_metadata := signal_metadata
              total_cost := 0
              total_proceeds := 0 } txn
        Except.ok (some roundtrip,
          { pf with
            cash := pf.cash - entry_cost
            open_roundtrips := pf.open_roundtrips ++ [(roundtrip_id, roundtrip)]
            transaction_log := pf.transaction_log ++ [txn]
            next_id := pf.next_id + 2 })

/-- Embeds `Portfolio.add_to_position`.  An unknown id raises; a
non-positive rounded share count or unaffordable cost returns the
sentinel `false` with the state unchanged. -/
def Portfolio.add_to_position (pf : Portfolio) (roundtrip_id : ℕ) (d : ℤ)
    (price shares0 : ℚ) (reason : String) :
    Except String (Bool × Portfolio) :=
  match lookupRT pf.open_roundtrips roundtrip_id with
  | none => Except.error "RoundTrip not found"
  | some roundtrip =>
    let shares := pf.round_shares shares0
    if shares ≤ 0 then Except.ok (false, pf)
    else
      match pf.transaction_cost.calculate_entry_cost shares price with
      | Except.error e => Except.error e
      | Except.ok add_cost =>
        if add_cost > pf.cash then Except.ok (false, pf)
        else
          let txn : Transaction :=
            { id := pf.next_id
              roundtrip_id := roundtrip_id
              ticker := roundtrip.ticker
              date := d
              transaction_type := TxType.addTx
              shares := shares
              price := price
              net_amount := -add_cost
              reason := reason }
          Except.ok (true,
            { pf with
              cash := pf.cash - add_cost
              open_roundtrips := updateRT pf.open_roundtrips roundtrip_id
                (roundtrip.add_transaction txn)
              transaction_log := pf.transaction_log ++ [txn]
              next_id := pf.next_id + 1 })

/-- Embeds `Portfolio.reduce_position`.  Raises on an unknown id, on an
over-request, and (inside `calculate_exit_value`) on non-positive shares
or price; otherwise credits the exit value, appends the `reduce`
transaction, and moves the roundtrip to the closed list when its
remaining shares hit zero.  Returns the realized P&L of the slice. -/
def Portfolio.reduce_position (pf : Portfolio) (roundtrip_id : ℕ) (d : ℤ)
    (price shares : ℚ) (reason : String) :
    Except String (ℚ × Portfolio) :=
  match lookupRT pf.open_roundtrips roundtrip_id with
  | none => Except.error "RoundTrip not found"
  | some roundtrip =>
    if shares > roundtrip.remaining_shares then
      Except.error "Cannot exit more shares than available"
    else
      match pf.transaction_cost.calculate_exit_value shares price with
      | Except.error e => Except.error e
      | Except.ok exit_value =>
        let txn : Transaction :=
          { id := pf.next_id
            roundtrip_id := roundtrip_id
            ticker := roundtrip.ticker
            date := d
            transaction_type := TxType.reduceTx
            shares := shares
            price := price
            net_amount := exit_value
            reason := reason }
        let cost_of_shares_sold := roundtrip.average_entry_price * shares
        let realized_pnl := exit_value - cost_of_shares_sold
        let roundtrip2 := roundtrip.add_transaction txn
        let pf2 : Portfolio :=
          { pf with
            cash := pf.cash + exit_value
            open_roundtrips := updateRT pf.open_roundtrips roundtrip_id roundtrip2
            transaction_log := pf.transaction_log ++ [txn]
            next_id := pf.next_id + 1 }
        if roundtrip2.remaining_shares = 0 then
          Except.ok (realized_pnl,
            { pf2 with
              closed_roundtrips := pf2.closed_roundtrips ++ [roundtrip2]
              open_roundtrips := eraseRT pf2.open_roundtrips roundtrip_id })
        else
          Except.ok (realized_pnl, pf2)

/-- Embeds `Portfolio.close_position`: sugar for a full
`reduce_position` of the current remaining shares. -/
def Portfolio.close_position (pf : Portfolio) (roundtrip_id : ℕ) (d : ℤ)
    (price : ℚ) (reason : String) :
    Except String (ℚ × Portfolio) :=
  match lookupRT pf.open_roundtrips roundtrip_id with
  | none => Except.error "RoundTrip not found"
  | some roundtrip =>
    pf.reduce_position roundtrip_id d price roundtrip.remaining_shares reason

/-- Embeds `Portfolio.get_total_value`: cash plus the marked value of
open positions that have a price. -/
def Portfolio.get_total_value (pf : Portfolio) (prices : String → Option ℚ) : ℚ :=
  pf.cash + (pf.open_roundtrips.map fun p =>
    match prices p.2.ticker with
    | some price => p.2.remaining_shares * price
    | none => 0).sum

/-- One ledger operation, for stating properties of arbitrary operation
sequences against a `Portfolio`. -/
inductive Op where
  | openPos (ticker : String) (d : ℤ) (price shares : ℚ) (rule : ExitRule) (meta : SignalMeta)
  | addPos (roundtrip_id : ℕ) (d : ℤ) (price shares : ℚ) (reason : String)
  | reducePos (roundtrip_id : ℕ) (d : ℤ) (price shares : ℚ) (reason : String)
  | closePos (roundtrip_id : ℕ) (d : ℤ) (price : ℚ) (reason : String)

/-- Applies one ledger operation, discarding the operation's return
value and keeping the resulting state; a raise aborts the run. -/
def applyOp (pf : Portfolio) : Op → Except String Portfolio
  | .openPos ticker d price shares rule meta =>
    match pf.open_position ticker d price shares rule meta with
    | Except.ok (_, pf2) => Except.ok pf2
    | Except.error e => Except.error e
  | .addPos rid d price shares reason =>
    match pf.add_to_position rid d price shares reason with
    | Except.ok (_, pf2) => Except.ok pf2
    | Except.error e => Except.error e
  | .reducePos rid d price shares reason =>
    match pf.reduce_position rid d price shares reason with
    | Except.ok (_, pf2) => Except.ok pf2
    | Except.error e => Except.error e
  | .closePos rid d price reason =>
    match pf.close_position rid d price reason with
    | Except.ok (_, pf2) => Except.ok pf2
    | Except.error e => Except.error e

/-- Runs a sequence of ledger operations from a starting state. -/
def runOps (pf : Portfolio) : List Op → Except String Portfolio
  | [] => Except.ok pf
  | op :: rest =>
    match applyOp pf op with
    | Except.ok pf2 => runOps pf2 rest
    | Except.error e => Except.error e

/-- A portfolio state produced by some operation sequence from a freshly
constructed portfolio. -/
def Reachable (pf : Portfolio) : Prop :=
  ∃ sc mp tc fs ops, runOps (mkPortfolio sc mp tc fs) ops = Except.ok pf

/-- Sum of the entry costs attached to the open/add transactions of a
log, each recomputed by the `calculate_entry_cost` formula. -/
def entrySum (tc : TransactionCost) (log : List Transaction) : ℚ :=
  ((log.filter fun t => t.transaction_type.isEntry).map fun t =>
    tc.entryCostVal t.shares t.price).sum

/-- Sum of the exit values attached to the reduce/close transactions of a
log, each recomputed by the `calculate_exit_value` formula. -/
def exitSum (tc : TransactionCost) (log : List Transaction) : ℚ :=
  ((log.filter fun t => t.transaction_type.isExit).map fun t =>
    tc.exitValueVal t.shares t.price).sum

/-- Embeds the `PositionSizer` class hierarchy of positionsizer.py as a
closed sum carrying each variant's constructor parameters. -/
inductive PositionSizer where
  | fixedDollarAmount (dollar_amount : ℚ)
  | percentPortfolio (percent : ℚ)
  | percentAvailableCash (percent : ℚ)
  | equalWeight (default_max_positions : ℤ)
  | fixedShares (shares : ℚ)
  | riskParity (base_dollar_amount target_volatility max_adjustment : ℚ)
deriving Repr, DecidableEq

/-- The constructor validations of each sizer variant (each `__init__`
raises `ValueError` when its check fails). -/
def PositionSizer.validB : PositionSizer → Bool
  | .fixedDollarAmount a => decide (0 < a)
  | .percentPortfolio p => decide (0 < p ∧ p ≤ 1)
  | .percentAvailableCash p => decide (0 < p ∧ p ≤ 1)
  | .equalWeight dmp => decide (0 < dmp)
  | .fixedShares sh => decide (0 < sh)
  | .riskParity b tv ma => decide (0 < b ∧ 0 < tv ∧ 1 ≤ ma)

/-- Embeds `calculate_shares` of every sizer variant.  `portfolio_max`
is `some` of the portfolio's `max_positions` when a portfolio is passed
(only `EqualWeight` reads it).  The Python `available_cash /
max_positions` raises `ZeroDivisionError` when the divisor is zero. -/
def PositionSizer.calculate_shares (s : PositionSizer)
    (price available_cash portfolio_value : ℚ) (portfolio_max : Option ℤ) :
    Except String ℚ :=
  if price ≤ 0 then Except.error "price must be positive"
  else
    match s with
    | .fixedDollarAmount dollar_amount =>
      let target_amount := min dollar_amount available_cash
      if target_amount ≤ 0 then Except.ok 0
      else Except.ok (target_amount / price)
    | .percentPortfolio percent =>
      let target_amount := portfolio_value * percent
      let actual_amount := min target_amount available_cash
      if actual_amount ≤ 0 then Except.ok 0
      else Except.ok (actual_amount / price)
    | .percentAvailableCash percent =>
      let target_amount := available_cash * percent
      if target_amount ≤ 0 then Except.ok 0
      else Except.ok (target_amount / price)
    | .equalWeight default_max_positions =>
      let max_positions := portfolio_max.getD default_max_positions
      if max_positions = 0 then Except.error "division by zero"
      else
        let allocation := available_cash / (max_positions : ℚ)
        if allocation ≤ 0 then Except.ok 0
        else Except.ok (allocation / price)
    | .fixedShares shares =>
      let required_cash := shares * price
      if required_cash > available_cash then Except.ok 0
      else Except.ok shares
    | .riskParity base_dollar_amount _ _ =>
      let target_amount := base_dollar_amount
      let actual_amount := min target_amount available_cash
      if actual_amount ≤ 0 then Except.ok 0
      else Except.ok (actual_amount / price)

/-- Embeds the `Signal` dataclass (entryrule.py). -/
structure Signal where
  ticker : String
  date : ℤ
  signal_type : String
  metadata : SignalMeta
  priority : ℚ

/-- Embeds `EntryRule` (entryrule.py).  `calculation` abstracts
`Calculation.calculate(ticker, date, data_provider, portfolio)` with the
data provider fixed; `condition` abstracts `Condition.check` on a
present value (the source tests `value is not None` first). -/
structure EntryRule where
  calculation : String → ℤ → Option Portfolio → Option ℚ
  condition : ℚ → Bool
  signal_type : String
  priority : ℚ

/-- Embeds `EntryRule.should_enter`. -/
def EntryRule.should_enter (rule : EntryRule) (ticker : String) (d : ℤ)
    (portfolio : Option Portfolio) : Option Signal :=
  match rule.calculation ticker d portfolio with
  | some value =>
    if rule.condition value then
      some { ticker := ticker
             date := d
             signal_type := rule.signal_type
             metadata := { values := [("value", value)], exit_rule := none }
             priority := rule.priority }
    else none
  | none => none

/-- The signal-collection loop of `Strategy.generate_signals`: tickers in
universe order (outer), entry rules in list order (inner), keeping the
non-empty signals in discovery order. -/
def collect_signals (univ : List String) (entry_rules : List EntryRule)
    (d : ℤ) (portfolio : Option Portfolio) : List Signal :=
  univ.flatMap fun ticker =>
    entry_rules.filterMap fun rule => rule.should_enter ticker d portfolio

/-- The comparison of `signals.sort(key=lambda s: s.priority,
reverse=True)`: `a` may stay before `b` when `b.priority ≤ a.priority`. -/
def signalLE (a b : Signal) : Bool :=
  decide (b.priority ≤ a.priority)

/-- Embeds `Strategy.generate_signals`: collect, then sort by priority
descending with a stable sort (Python `list.sort` is stable). -/
def generate_signals (univ : List String) (entry_rules : List EntryRule)
    (d : ℤ) (portfolio : Option Portfolio) : List Signal :=
  (collect_signals univ entry_rules d portfolio).mergeSort signalLE

/-- Embeds `Backtester._calculate_portfolio_value`: cash plus marked
value of priced open positions. -/
def calculate_portfolio_value (pf : Portfolio) (prices : String → Option ℚ) : ℚ :=
  pf.cash + (pf.open_roundtrips.map fun p =>
    match prices p.2.ticker with
    | some price => p.2.remaining_shares * price
    | none => 0).sum

/-- The collection phase of `Backtester._process_exits`: walk the open
roundtrips in dict order, skip unpriced tickers, evaluate each exit rule
(threading the trailing-stop peak table), and record `(rt_id, portion,
price, reason)` for each firing rule. -/
def collect_exits : List (ℕ × RoundTrip) → PeakMap → ℤ → (String → Option ℚ) →
    (List (ℕ × ℚ × ℚ × String) × PeakMap)
  | [], pm, _, _ => ([], pm)
  | (rid, rt) :: rest, pm, d, prices =>
    match prices rt.ticker with
    | none => collect_exits rest pm d prices
    | some price =>
      let res := rt.exit_rule.should_exit pm rt d price
      let tail := collect_exits rest res.2 d prices
      if res.1.1 then ((rid, res.1.2.1, price, res.1.2.2) :: tail.1, tail.2)
      else tail

/-- The execution phase of `Backtester._process_exits`: a portion at or
above `0.9999` is a full close, anything else a partial reduce of
`remaining_shares * portion`. -/
def execute_exits (pf : Portfolio) (d : ℤ) :
    List (ℕ × ℚ × ℚ × String) → Except String Portfolio
  | [] => Except.ok pf
  | (rid, portion, price, reason) :: rest =>
    match lookupRT pf.open_roundtrips rid with
    | none => Except.error "KeyError"
    | some rt =>
      let shares_to_exit := rt.remaining_shares * portion
      if portion ≥ 9999 / 10000 then
        match pf.close_position rid d price reason with
        | Except.ok (_, pf2) => execute_exits pf2 d rest
        | Except.error e => Except.error e
      else
        match pf.reduce_position rid d price shares_to_exit reason with
        | Except.ok (_, pf2) => execute_exits pf2 d rest
        | Except.error e => Except.error e

/-- Embeds `Backtester._process_exits`: collect firing exits over the
open positions, then execute them. -/
def process_exits (pf : Portfolio) (pm : PeakMap) (d : ℤ)
    (prices : String → Option ℚ) : Except String (Portfolio × PeakMap) :=
  let res := collect_exits pf.open_roundtrips pm d prices
  match execute_exits pf d res.1 with
  | Except.ok pf2 => Except.ok (pf2, res.2)
  | Except.error e => Except.error e

/-- The signal loop of `Backtester._process_entries`: stop at capacity,
size each signal against current cash, skip non-positive sizes, take the
signal's exit-rule override or the strategy default, and continue past
sentinel refusals of `open_position`. -/
def process_entries_go (sizer : PositionSizer) (default_rule : ExitRule)
    (d : ℤ) (prices : String → Option ℚ) :
    Portfolio → List Signal → Except String Portfolio
  | pf, [] => Except.ok pf
  | pf, s :: rest =>
    if ¬ pf.can_open_position then Except.ok pf
    else
      match prices s.ticker with
      | none => Except.error "KeyError"
      | some current_price =>
        let portfolio_value := calculate_portfolio_value pf prices
        match sizer.calculate_shares current_price pf.cash portfolio_value
            (some pf.max_positions) with
        | Except.error e => Except.error e
        | Except.ok shares =>
          if shares ≤ 0 then process_entries_go sizer default_rule d prices pf rest
          else
            let exit_rule := s.metadata.exit_rule.getD default_rule
            match pf.open_position s.ticker d current_price shares exit_rule s.metadata with
            | Except.error e => Except.error e
            | Except.ok (_, pf2) => process_entries_go sizer default_rule d prices pf2 rest

/-- Embeds `Backtester._process_entries`: filter the signals to priced
tickers, then run the entry loop. -/
def process_entries (sizer : PositionSizer) (default_rule : ExitRule)
    (pf : Portfolio) (d : ℤ) (prices : String → Option ℚ)
    (signals : List Signal) : Except String Portfolio :=
  let valid_signals := signals.filter fun s => (prices s.ticker).isSome
  process_entries_go sizer default_rule d prices pf valid_signals

/-- Embeds `Backtester._process_day`: exits first, then signal
generation on the post-exit portfolio, then entries, then the equity
sample.  `sigGen` abstracts `strategy.generate_signals(current_date,
data_provider, portfolio)`. -/
def process_day (sizer : PositionSizer) (default_rule : ExitRule)
    (sigGen : Portfolio → List Signal) (pf : Portfolio) (pm : PeakMap)
    (d : ℤ) (prices : String → Option ℚ) :
    Except String (Portfolio × PeakMap) :=
  match process_exits pf pm d prices with
  | Except.error e => Except.error e
  | Except.ok (pf1, pm1) =>
    let signals := sigGen pf1
    match process_entries sizer default_rule pf1 d prices signals with
    | Except.error e => Except.error e
    | Except.ok pf2 =>
      let portfolio_value := calculate_portfolio_value pf2 prices
      Except.ok (pf2.record_equity d portfolio_value, pm1)

/-- The capacity divisor used by `calculate_shares` is nonzero; only
`EqualWeight` divides by a capacity, so only it has a condition. -/
def PositionSizer.divisorOkB (s : PositionSizer) (portfolio_max : Option ℤ) : Bool :=
  match s with
  | .equalWeight default_max_positions => decide (portfolio_max.getD default_max_positions ≠ 0)
  | _ => true

/-- Per-variant condition under which `calculate_shares` returns exactly
zero: the computed allocation is non-positive, or for `FixedShares` the
required cash exceeds the available cash. -/
def PositionSizer.zeroAllocCond (s : PositionSizer)
    (price available_cash portfolio_value : ℚ) (portfolio_max : Option ℤ) : Prop :=
  match s with
  | .fixedDollarAmount dollar_amount => min dollar_amount available_cash ≤ 0
  | .percentPortfolio percent => min (portfolio_value * percent) available_cash ≤ 0
  | .percentAvailableCash percent => available_cash * percent ≤ 0
  | .equalWeight default_max_positions =>
    available_cash / ((portfolio_max.getD default_max_positions : ℤ) : ℚ) ≤ 0
  | .fixedShares shares => shares * price > available_cash
  | .riskParity base_dollar_amount _ _ => min base_dollar_amount available_cash ≤ 0

/-- The invariant behind cash conservation: cash is the starting capital
plus the signed net amounts of the whole transaction log. -/
def CashInv (pf : Portfolio) : Prop :=
  pf.cash = pf.starting_capital
    - entrySum pf.transaction_cost pf.transaction_log
    + exitSum pf.transaction_cost pf.transaction_log

/-- Open roundtrips always hold strictly positive remaining shares. -/
def OpenInv (pf : Portfolio) : Prop :=
  ∀ p ∈ pf.open_roundtrips, 0 < p.2.remaining_shares

/-- Closed roundtrips have exactly zero remaining shares. -/
def ClosedInv (pf : Portfolio) : Prop :=
  ∀ rt ∈ pf.closed_roundtrips, rt.remaining_shares = 0

/-- Every id in the portfolio is below the fresh-id counter, so a newly
opened position can never collide with a closed one. -/
def IdInv (pf : Portfolio) : Prop :=
  (∀ p ∈ pf.open_roundtrips, p.1 < pf.next_id ∧ p.2.id < pf.next_id)
    ∧ (∀ rt ∈ pf.closed_roundtrips, rt.id < pf.next_id)

/-- Empty trailing-stop peak table. -/
def pmEmpty : PeakMap := fun _ => none

/-- Zero-cost configuration (no commission, no slippage). -/
def zeroTC : TransactionCost := { commission := 0, slippage_pct := 0 }

/-- Empty signal metadata. -/
def noMeta : SignalMeta := { values := [], exit_rule := none }

/-- A 30-day time exit used as a neutral default rule in fixtures. -/
def ruleT30 : ExitRule := ExitRule.timeBasedExit 30

/-- Placeholder roundtrip for `Option.getD`. -/
def rtDefault : RoundTrip :=
  { id := 0, ticker := "", transactions := [], exit_rule := ruleT30
    entry_signal_metadata := noMeta, total_cost := 0, total_proceeds := 0 }

/-- Fixture: fresh zero-cost portfolio with capital 1000 and capacity 2. -/
def pfW0 : Portfolio := mkPortfolio 1000 2 zeroTC true

/-- Fixture: `pfW0` after opening 5 shares of AAPL at 10. -/
def pfW1 : Portfolio :=
  match pfW0.open_position "AAPL" 0 10 5 ruleT30 noMeta with
  | Except.ok (_, pf) => pf
  | Except.error _ => pfW0

/-- Fixture: the single open roundtrip of `pfW1`. -/
def rtW1 : RoundTrip := (lookupRT pfW1.open_roundtrips 0).getD rtDefault

/-- Fixture: a full open/add/reduce/close lifecycle. -/
def opsW : List Op :=
  [Op.openPos "AAPL" 0 10 5 ruleT30 noMeta,
   Op.addPos 0 1 9 5 "add",
   Op.reducePos 0 2 11 4 "take_profit",
   Op.closePos 0 3 12 "done"]

/-- Fixture: `pfW0` after running `opsW`. -/
def pfW2 : Portfolio :=
  match runOps pfW0 opsW with
  | Except.ok pf => pf
  | Except.error _ => pfW0

/-- Fixture: the entry transaction of the exit-rule scenarios — 10
shares at 100, zero costs. -/
def txnOpen100 : Transaction :=
  { id := 1, roundtrip_id := 0, ticker := "AAPL", date := 0
    transaction_type := TxType.openTx, shares := 10, price := 100
    net_amount := -1000, reason := "signal" }

/-- Fixture: a roundtrip entered at an average price of 100 on day 0. -/
def rtEntry100 : RoundTrip :=
  RoundTrip.add_transaction
    { id := 0, ticker := "AAPL", transactions := [], exit_rule := ruleT30
      entry_signal_metadata := noMeta, total_cost := 0, total_proceeds := 0 }
    txnOpen100

/-- Fixture: the stop-loss-then-time composite of the spec scenario. -/
def compW : ExitRule :=
  ExitRule.compositeExitRule
    [(ExitRule.stopLossExit (8/100), 1), (ExitRule.timeBasedExit 30, 1)]

/-- Fixture: a 1-day time exit, so the day-processing scenario fires. -/
def ruleT1 : ExitRule := ExitRule.timeBasedExit 1

/-- Fixture: an at-capacity portfolio (capacity 1) holding 5 shares of
AAPL at 10, whose exit rule fires after one day. -/
def pfD0 : Portfolio :=
  match (mkPortfolio 1000 1 zeroTC true).open_position "AAPL" 0 10 5 ruleT1 noMeta with
  | Except.ok (_, pf) => pf
  | Except.error _ => mkPortfolio 1000 1 zeroTC true

/-- Fixture: day prices for the day-processing scenario. -/
def pricesW : String → Option ℚ :=
  fun t => if t = "AAPL" then some 12 else if t = "BBB" then some 10 else none

/-- Fixture: one entry signal for BBB. -/
def sigW : Signal :=
  { ticker := "BBB", date := 5, signal_type := "sig", metadata := noMeta, priority := 1 }

/-- Fixture: a signal generator producing exactly `sigW`. -/
def sigGenW : Portfolio → List Signal := fun _ => [sigW]

/-- Fixture: a fixed 3-share sizer. -/
def sizerW : PositionSizer := PositionSizer.fixedShares 3

/-- The peak the trailing stop starts from on one evaluation: the
stored per-roundtrip peak, or `average_entry_price` on the first
evaluation. -/
def trailPeak0 (pm : PeakMap) (rt : RoundTrip) : ℚ :=
  match pm rt.id with
  | none => rt.average_entry_price
  | some pk => pk

/-- Fixture: `pfW1` after fully reducing its only position at 12. -/
def pfW3 : Portfolio :=
  match pfW1.reduce_position 0 2 12 rtW1.remaining_shares "exit" with
  | Except.ok (_, pf) => pf
  | Except.error _ => pfW1

/-- Fixture: a second position opened on `pfW1`. -/
def openW2 : Except String (Option RoundTrip × Portfolio) :=
  pfW1.open_position "BBB" 1 10 5 ruleT30 noMeta

/-- Fixture: the roundtrip created by `openW2`. -/
def rtB : RoundTrip :=
  match openW2 with
  | Except.ok (some rt, _) => rt
  | _ => rtDefault

/-- Fixture: the portfolio state after `openW2`. -/
def pfB : Portfolio :=
  match openW2 with
  | Except.ok (_, pf) => pf
  | Except.error _ => pfW1

theorem calculate_entry_cost_ok {tc : TransactionCost} {s p c : ℚ}
    (h : tc.calculate_entry_cost s p = Except.ok c) :
    0 < s ∧ 0 < p ∧ c = tc.entryCostVal s p := by
  unfold TransactionCost.calculate_entry_cost at h
  split at h
  · exact absurd h (by simp)
  · split at h
    · exact absurd h (by simp)
    · rename_i h1 h2
      refine ⟨lt_of_not_le h1, lt_of_not_le h2, ?_⟩
      simp only [Except.ok.injEq] at h
      exact h.symm

theorem calculate_entry_cost_ok' {tc : TransactionCost} {s p : ℚ}
    (hs : 0 < s) (hp : 0 < p) :
    tc.calculate_entry_cost s p = Except.ok (tc.entryCostVal s p) := by
  unfold TransactionCost.calculate_entry_cost
  rw [if_neg (not_le.mpr hs), if_neg (not_le.mpr hp)]

theorem calculate_exit_value_ok {tc : TransactionCost} {s p c : ℚ}
    (h : tc.calculate_exit_value s p = Except.ok c) :
    0 < s ∧ 0 < p ∧ c = tc.exitValueVal s p := by
  unfold TransactionCost.calculate_exit_value at h
  split at h
  · exact absurd h (by simp)
  · split at h
    · exact absurd h (by simp)
    · rename_i h1 h2
      refine ⟨lt_of_not_le h1, lt_of_not_le h2, ?_⟩
      simp only [Except.ok.injEq] at h
      exact h.symm

theorem calculate_exit_value_ok' {tc : TransactionCost} {s p : ℚ}
    (hs : 0 < s) (hp : 0 < p) :
    tc.calculate_exit_value s p = Except.ok (tc.exitValueVal s p) := by
  unfold TransactionCost.calculate_exit_value
  rw [if_neg (not_le.mpr hs), if_neg (not_le.mpr hp)]

theorem lookupRT_mem {l : List (ℕ × RoundTrip)} {rid : ℕ} {rt : RoundTrip}
    (h : lookupRT l rid = some rt) : (rid, rt) ∈ l := by
  induction l with
  | nil => simp [lookupRT] at h
  | cons q rest ih =>
    obtain ⟨k, v⟩ := q
    unfold lookupRT at h
    split at h
    · rename_i hk
      simp only [Option.some.injEq] at h
      subst hk h
      exact List.mem_cons_self _ _
    · exact List.mem_cons_of_mem _ (ih h)

theorem mem_updateRT {l : List (ℕ × RoundTrip)} {rid : ℕ} {v : RoundTrip}
    {q : ℕ × RoundTrip} (h : q ∈ updateRT l rid v) : q ∈ l ∨ q = (rid, v) := by
  induction l with
  | nil => simp [updateRT] at h
  | cons p rest ih =>
    obtain ⟨k, w⟩ := p
    unfold updateRT at h
    split at h
    · rename_i hk
      subst hk
      rcases List.mem_cons.mp h with h1 | h1
      · exact Or.inr (by simpa using h1)
      · exact Or.inl (List.mem_cons_of_mem _ h1)
    · rcases List.mem_cons.mp h with h1 | h1
      · exact Or.inl (by simp [h1])
      · rcases ih h1 with h2 | h2
        · exact Or.inl (List.mem_cons_of_mem _ h2)
        · exact Or.inr h2

theorem mem_eraseRT {l : List (ℕ × RoundTrip)} {rid : ℕ} {q : ℕ × RoundTrip}
    (h : q ∈ eraseRT l rid) : q ∈ l ∧ q.1 ≠ rid := by
  unfold eraseRT at h
  have := List.mem_filter.mp h
  exact ⟨this.1, by simpa using this.2⟩

theorem lookupRT_eraseRT_self (l : List (ℕ × RoundTrip)) (rid : ℕ) :
    lookupRT (eraseRT l rid) rid = none := by
  induction l with
  | nil => rfl
  | cons p rest ih =>
    obtain ⟨k, w⟩ := p
    unfold eraseRT at ih ⊢
    by_cases hk : k = rid
    · simpa [List.filter, hk] using ih
    · simpa [List.filter, hk, lookupRT] using ih

theorem remaining_add_transaction (rt : RoundTrip) (txn : Transaction) :
    (rt.add_transaction txn).remaining_shares
      = rt.remaining_shares
        + (if txn.transaction_type.isEntry then txn.shares else -txn.shares) := by
  have hcase : (txn.transaction_type.isEntry = true ∧ txn.transaction_type.isExit = false)
      ∨ (txn.transaction_type.isEntry = false ∧ txn.transaction_type.isExit = true) := by
    cases txn.transaction_type <;> simp [TxType.isEntry, TxType.isExit]
  unfold RoundTrip.add_transaction RoundTrip.remaining_shares
  rcases hcase with ⟨h1, h2⟩ | ⟨h1, h2⟩ <;>
    simp [List.filter_append, h1, h2] <;> ring

theorem open_position_spec {pf : Portfolio} {ticker : String} {d : ℤ}
    {price shares0 : ℚ} {rule : ExitRule} {meta : SignalMeta}
    {res : Option RoundTrip} {pf2 : Portfolio}
    (h : pf.open_position ticker d price shares0 rule meta = Except.ok (res, pf2)) :
    (res = none ∧ pf2 = pf)
    ∨ (∃ txn rt,
        res = some rt ∧
        pf2 = { pf with
          cash := pf.cash - pf.transaction_cost.entryCostVal txn.shares price
          open_roundtrips := pf.open_roundtrips ++ [(pf.next_id, rt)]
          transaction_log := pf.transaction_log ++ [txn]
          next_id := pf.next_id + 2 } ∧
        txn.shares = pf.round_shares shares0 ∧ 0 < txn.shares ∧ 0 < price ∧
        txn.price = price ∧ txn.transaction_type = TxType.openTx ∧
        txn.net_amount = -(pf.transaction_cost.entryCostVal txn.shares price) ∧
        txn.roundtrip_id = pf.next_id ∧
        rt.id = pf.next_id ∧ rt.transactions = [txn] ∧ rt.exit_rule = rule ∧
        (pf.can_open_position : Prop) ∧
        pf.transaction_cost.entryCostVal txn.shares price ≤ pf.cash) := by
  unfold Portfolio.open_position at h
  dsimp only [] at h
  split at h
  · simp only [Except.ok.injEq, Prod.mk.injEq] at h
    exact Or.inl ⟨h.1.symm, h.2.symm⟩
  · rename_i hs
    split at h
    · simp only [Except.ok.injEq, Prod.mk.injEq] at h
      exact Or.inl ⟨h.1.symm, h.2.symm⟩
    · rename_i hcap
      split at h
      · exact absurd h (by simp)
      · rename_i c hc
        obtain ⟨hcs, hcp, hcv⟩ := calculate_entry_cost_ok hc
        subst hcv
        split at h
        · simp only [Except.ok.injEq, Prod.mk.injEq] at h
          exact Or.inl ⟨h.1.symm, h.2.symm⟩
        · rename_i hcash
          simp only [Except.ok.injEq, Prod.mk.injEq] at h
          refine Or.inr ⟨_, _, h.1.symm, h.2.symm, rfl, hcs, hcp, rfl, rfl, rfl, rfl,
            rfl, List.nil_append _, rfl, by simpa using hcap, le_of_not_lt hcash⟩

theorem add_to_position_spec {pf : Portfolio} {rid : ℕ} {d : ℤ}
    {price shares0 : ℚ} {reason : String} {b : Bool} {pf2 : Portfolio}
    (h : pf.add_to_position rid d price shares0 reason = Except.ok (b, pf2)) :
    ∃ rt, lookupRT pf.open_roundtrips rid = some rt ∧
      ((b = false ∧ pf2 = pf)
        ∨ (∃ txn,
            txn = { id := pf.next_id, roundtrip_id := rid, ticker := rt.ticker, date := d
                    transaction_type := TxType.addTx, shares := pf.round_shares shares0
                    price := price
                    net_amount := -(pf.transaction_cost.entryCostVal (pf.round_shares shares0) price)
                    reason := reason } ∧
            0 < pf.round_shares shares0 ∧ 0 < price ∧ b = true ∧
            pf2 = { pf with
              cash := pf.cash - pf.transaction_cost.entryCostVal (pf.round_shares shares0) price
              open_roundtrips := updateRT pf.open_roundtrips rid (rt.add_transaction txn)
              transaction_log := pf.transaction_log ++ [txn]
              next_id := pf.next_id + 1 })) := by
  unfold Portfolio.add_to_position at h
  split at h
  · exact absurd h (by simp)
  · rename_i rt hrt
    refine ⟨rt, hrt, ?_⟩
    dsimp only [] at h
    split at h
    · simp only [Except.ok.injEq, Prod.mk.injEq] at h
      exact Or.inl ⟨h.1.symm, h.2.symm⟩
    · rename_i hs
      split at h
      · exact absurd h (by simp)
      · rename_i c hc
        obtain ⟨hcs, hcp, hcv⟩ := calculate_entry_cost_ok hc
        subst hcv
        split at h
        · simp only [Except.ok.injEq, Prod.mk.injEq] at h
          exact Or.inl ⟨h.1.symm, h.2.symm⟩
        · simp only [Except.ok.injEq, Prod.mk.injEq] at h
          exact Or.inr ⟨_, rfl, hcs, hcp, h.1.symm, h.2.symm⟩

theorem reduce_position_spec {pf : Portfolio} {rid : ℕ} {d : ℤ}
    {price shares : ℚ} {reason : String} {pnl : ℚ} {pf2 : Portfolio}
    (h : pf.reduce_position rid d price shares reason = Except.ok (pnl, pf2)) :
    ∃ rt, lookupRT pf.open_roundtrips rid = some rt ∧
      shares ≤ rt.remaining_shares ∧ 0 < shares ∧ 0 < price ∧
      ∃ txn,
        txn = { id := pf.next_id, roundtrip_id := rid, ticker := rt.ticker, date := d
                transaction_type := TxType.reduceTx, shares := shares, price := price
                net_amount := pf.transaction_cost.exitValueVal shares price
                reason := reason } ∧
        pnl = pf.transaction_cost.exitValueVal shares price
                - rt.average_entry_price * shares ∧
        ((rt.add_transaction txn).remaining_shares = 0 ∧
          pf2 = { pf with
            cash := pf.cash + pf.transaction_cost.exitValueVal shares price
            open_roundtrips := eraseRT (updateRT pf.open_roundtrips rid (rt.add_transaction txn)) rid
            closed_roundtrips := pf.closed_roundtrips ++ [rt.add_transaction txn]
            transaction_log := pf.transaction_log ++ [txn]
            next_id := pf.next_id + 1 }
        ∨ (rt.add_transaction txn).remaining_shares ≠ 0 ∧
          pf2 = { pf with
            cash := pf.cash + pf.transaction_cost.exitValueVal shares price
            open_roundtrips := updateRT pf.open_roundtrips rid (rt.add_transaction txn)
            transaction_log := pf.transaction_log ++ [txn]
            next_id := pf.next_id + 1 }) := by
  unfold Portfolio.reduce_position at h
  split at h
  · exact absurd h (by simp)
  · rename_i rt hrt
    split at h
    · exact absurd h (by simp)
    · rename_i hsh
      split at h
      · exact absurd h (by simp)
      · rename_i v hv
        obtain ⟨hvs, hvp, hvv⟩ := calculate_exit_value_ok hv
        subst hvv
        refine ⟨rt, hrt, le_of_not_lt (by simpa using hsh), hvs, hvp, _, rfl, ?_⟩
        dsimp only [] at h
        split at h
        · rename_i hzero
          simp only [Except.ok.injEq, Prod.mk.injEq] at h
          exact ⟨h.1.symm, Or.inl ⟨hzero, h.2.symm⟩⟩
        · rename_i hzero
          simp only [Except.ok.injEq, Prod.mk.injEq] at h
          exact ⟨h.1.symm, Or.inr ⟨hzero, h.2.symm⟩⟩

theorem close_position_spec {pf : Portfolio} {rid : ℕ} {d : ℤ}
    {price : ℚ} {reason : String} {pnl : ℚ} {pf2 : Portfolio}
    (h : pf.close_position rid d price reason = Except.ok (pnl, pf2)) :
    ∃ rt, lookupRT pf.open_roundtrips rid = some rt ∧
      pf.reduce_position rid d price rt.remaining_shares reason = Except.ok (pnl, pf2) := by
  unfold Portfolio.close_position at h
  split at h
  · exact absurd h (by simp)
  · rename_i rt hrt
    exact ⟨rt, hrt, h⟩

theorem entrySum_append (tc : TransactionCost) (l1 l2 : List Transaction) :
    entrySum tc (l1 ++ l2) = entrySum tc l1 + entrySum tc l2 := by
  simp [entrySum, List.filter_append]

theorem exitSum_append (tc : TransactionCost) (l1 l2 : List Transaction) :
    exitSum tc (l1 ++ l2) = exitSum tc l1 + exitSum tc l2 := by
  simp [exitSum, List.filter_append]

theorem entrySum_singleton (tc : TransactionCost) (t : Transaction) :
    entrySum tc [t]
      = if t.transaction_type.isEntry then tc.entryCostVal t.shares t.price else 0 := by
  by_cases ht : t.transaction_type.isEntry <;> simp [entrySum, List.filter, ht]

theorem exitSum_singleton (tc : TransactionCost) (t : Transaction) :
    exitSum tc [t]
      = if t.transaction_type.isExit then tc.exitValueVal t.shares t.price else 0 := by
  by_cases ht : t.transaction_type.isExit <;> simp [exitSum, List.filter, ht]

theorem entrySum_nil (tc : TransactionCost) : entrySum tc [] = 0 := rfl

theorem exitSum_nil (tc : TransactionCost) : exitSum tc [] = 0 := rfl

theorem applyOp_delta {pf pf2 : Portfolio} {op : Op} (h : applyOp pf op = Except.ok pf2) :
    pf2.starting_capital = pf.starting_capital ∧
    pf2.transaction_cost = pf.transaction_cost ∧
    pf2.max_positions = pf.max_positions ∧
    pf2.fractional_shares = pf.fractional_shares ∧
    pf.next_id ≤ pf2.next_id ∧
    ∃ ts, pf2.transaction_log = pf.transaction_log ++ ts ∧
      pf2.cash = pf.cash - entrySum pf.transaction_cost ts + exitSum pf.transaction_cost ts := by
  cases op with
  | openPos ticker d price shares rule meta =>
    simp only [applyOp] at h
    split at h
    · rename_i res pfx heq
      simp only [Except.ok.injEq] at h
      subst h
      rcases open_position_spec heq with ⟨_, rfl⟩ | ⟨txn, rt, _, rfl, _, _, _, hpr, hty, _⟩
      · exact ⟨rfl, rfl, rfl, rfl, le_refl _, [], (List.append_nil _).symm,
          by rw [entrySum_nil, exitSum_nil]; ring⟩
      · refine ⟨rfl, rfl, rfl, rfl, Nat.le_add_right _ _, [txn], rfl, ?_⟩
        rw [entrySum_singleton, exitSum_singleton, hty, hpr]
        simp only [TxType.isEntry, TxType.isExit, if_pos, if_neg, Bool.false_eq_true,
          not_false_eq_true]
        ring
    · exact absurd h (by simp)
  | addPos rid d price shares reason =>
    simp only [applyOp] at h
    split at h
    · rename_i b pfx heq
      simp only [Except.ok.injEq] at h
      subst h
      rcases add_to_position_spec heq with ⟨rt, hrt, ⟨_, rfl⟩ | ⟨txn, htxn, _, _, _, rfl⟩⟩
      · exact ⟨rfl, rfl, rfl, rfl, le_refl _, [], (List.append_nil _).symm,
          by rw [entrySum_nil, exitSum_nil]; ring⟩
      · refine ⟨rfl, rfl, rfl, rfl, Nat.le_add_right _ _, [txn], rfl, ?_⟩
        subst htxn
        rw [entrySum_singleton, exitSum_singleton]
        simp only [TxType.isEntry, TxType.isExit, if_pos, if_neg, Bool.false_eq_true,
          not_false_eq_true]
        ring
    · exact absurd h (by simp)
  | reducePos rid d price shares reason =>
    simp only [applyOp] at h
    split at h
    · rename_i pnl pfx heq
      simp only [Except.ok.injEq] at h
      subst h
      rcases reduce_position_spec heq with
        ⟨rt, hrt, _, _, _, txn, htxn, _, ⟨_, rfl⟩ | ⟨_, rfl⟩⟩ <;>
      · refine ⟨rfl, rfl, rfl, rfl, Nat.le_add_right _ _, [txn], rfl, ?_⟩
        subst htxn
        rw [entrySum_singleton, exitSum_singleton]
        simp only [TxType.isEntry, TxType.isExit, if_pos, if_neg, Bool.false_eq_true,
          not_false_eq_true]
        ring
    · exact absurd h (by simp)
  | closePos rid d price reason =>
    simp only [applyOp] at h
    split at h
    · rename_i pnl pfx heq
      simp only [Except.ok.injEq] at h
      subst h
      obtain ⟨rt0, _, heq2⟩ := close_position_spec heq
      rcases reduce_position_spec heq2 with
        ⟨rt, hrt, _, _, _, txn, htxn, _, ⟨_, rfl⟩ | ⟨_, rfl⟩⟩ <;>
      · refine ⟨rfl, rfl, rfl, rfl, Nat.le_add_right _ _, [txn], rfl, ?_⟩
        subst htxn
        rw [entrySum_singleton, exitSum_singleton]
        simp only [TxType.isEntry, TxType.isExit, if_pos, if_neg, Bool.false_eq_true,
          not_false_eq_true]
        ring
    · exact absurd h (by simp)

theorem runOps_delta {pf pf2 : Portfolio} {ops : List Op}
    (h : runOps pf ops = Except.ok pf2) :
    pf2.starting_capital = pf.starting_capital ∧
    pf2.transaction_cost = pf.transaction_cost ∧
    pf2.max_positions = pf.max_positions ∧
    pf2.fractional_shares = pf.fractional_shares ∧
    pf.next_id ≤ pf2.next_id ∧
    ∃ ts, pf2.transaction_log = pf.transaction_log ++ ts ∧
      pf2.cash = pf.cash - entrySum pf.transaction_cost ts + exitSum pf.transaction_cost ts := by
  induction ops generalizing pf with
  | nil =>
    unfold runOps at h
    simp only [Except.ok.injEq] at h
    subst h
    exact ⟨rfl, rfl, rfl, rfl, le_refl _, [], by simp, by simp [entrySum_nil, exitSum_nil]⟩
  | cons op rest ih =>
    unfold runOps at h
    split at h
    · rename_i pfmid heq
      obtain ⟨hsc1, htc1, hmp1, hfs1, hn1, ts1, hlog1, hcash1⟩ := applyOp_delta heq
      obtain ⟨hsc2, htc2, hmp2, hfs2, hn2, ts2, hlog2, hcash2⟩ := ih h
      refine ⟨hsc2.trans hsc1, htc2.trans htc1, hmp2.trans hmp1, hfs2.trans hfs1,
        le_trans hn1 hn2, ts1 ++ ts2, ?_, ?_⟩
      · rw [hlog2, hlog1, List.append_assoc]
      · rw [hcash2, hcash1, htc1, entrySum_append, exitSum_append]
        ring
    · exact absurd h (by simp)

theorem add_transaction_id (rt : RoundTrip) (txn : Transaction) :
    (rt.add_transaction txn).id = rt.id := rfl

theorem remaining_shares_singleton {rt : RoundTrip} {txn : Transaction}
    (h : rt.transactions = [txn]) (ht : txn.transaction_type = TxType.openTx) :
    rt.remaining_shares = txn.shares := by
  unfold RoundTrip.remaining_shares
  rw [h]
  simp [List.filter, ht, TxType.isEntry, TxType.isExit]

theorem reduce_position_inv {pf pfx : Portfolio} {rid : ℕ} {d : ℤ}
    {price shares : ℚ} {reason : String} {pnl : ℚ}
    (heq : pf.reduce_position rid d price shares reason = Except.ok (pnl, pfx))
    (h1 : OpenInv pf) (h2 : ClosedInv pf) (h3 : IdInv pf) :
    OpenInv pfx ∧ ClosedInv pfx ∧ IdInv pfx := by
  obtain ⟨rt, hrt, hsh, hpos, _, txn, htxn, _, hcase⟩ := reduce_position_spec heq
  have hmem := lookupRT_mem hrt
  have hold : 0 < rt.remaining_shares := h1 _ hmem
  have hb : rid < pf.next_id ∧ rt.id < pf.next_id := h3.1 _ hmem
  have hrem2 : (rt.add_transaction txn).remaining_shares
      = rt.remaining_shares - shares := by
    rw [remaining_add_transaction]
    subst htxn
    simp only [TxType.isEntry, Bool.false_eq_true, if_false]
    ring
  rcases hcase with ⟨hzero, rfl⟩ | ⟨hnz, rfl⟩
  · refine ⟨?_, ?_, ?_, ?_⟩
    · intro q hq
      obtain ⟨hq1, hq2⟩ := mem_eraseRT hq
      rcases mem_updateRT hq1 with hq1 | hq1
      · exact h1 q hq1
      · exact absurd (congrArg Prod.fst hq1) hq2
    · intro rt2 hrt2
      rcases List.mem_append.mp hrt2 with hrt2 | hrt2
      · exact h2 rt2 hrt2
      · simp only [List.mem_singleton] at hrt2
        subst hrt2
        exact hzero
    · intro q hq
      obtain ⟨hq1, _⟩ := mem_eraseRT hq
      rcases mem_updateRT hq1 with hq1 | hq1
      · have := h3.1 q hq1
        exact ⟨Nat.lt_add_right _ this.1, Nat.lt_add_right _ this.2⟩
      · subst hq1
        constructor
        · show rid < pf.next_id + 1
          omega
        · show (rt.add_transaction txn).id < pf.next_id + 1
          rw [add_transaction_id]
          omega
    · intro rt2 hrt2
      rcases List.mem_append.mp hrt2 with hrt2 | hrt2
      · have := h3.2 rt2 hrt2
        show rt2.id < pf.next_id + 1
        omega
      · simp only [List.mem_singleton] at hrt2
        subst hrt2
        show (rt.add_transaction txn).id < pf.next_id + 1
        rw [add_transaction_id]
        omega
  · refine ⟨?_, h2, ?_, ?_⟩
    · intro q hq
      rcases mem_updateRT hq with hq | hq
      · exact h1 q hq
      · subst hq
        show 0 < (rt.add_transaction txn).remaining_shares
        rw [hrem2] at hnz ⊢
        rcases lt_or_eq_of_le (sub_nonneg.mpr hsh) with hlt | heq0
        · exact hlt
        · exact absurd heq0.symm hnz
    · intro q hq
      rcases mem_updateRT hq with hq | hq
      · have := h3.1 q hq
        exact ⟨Nat.lt_add_right _ this.1, Nat.lt_add_right _ this.2⟩
      · subst hq
        constructor
        · show rid < pf.next_id + 1
          omega
        · show (rt.add_transaction txn).id < pf.next_id + 1
          rw [add_transaction_id]
          omega
    · intro rt2 hrt2
      have := h3.2 rt2 hrt2
      show rt2.id < pf.next_id + 1
      omega

theorem applyOp_inv {pf pf2 : Portfolio} {op : Op} (h : applyOp pf op = Except.ok pf2)
    (h1 : OpenInv pf) (h2 : ClosedInv pf) (h3 : IdInv pf) :
    OpenInv pf2 ∧ ClosedInv pf2 ∧ IdInv pf2 := by
  cases op with
  | openPos ticker d price shares rule meta =>
    simp only [applyOp] at h
    split at h
    · rename_i res pfx heq
      simp only [Except.ok.injEq] at h
      subst h
      rcases open_position_spec heq with ⟨_, rfl⟩ | ⟨txn, rt, _, rfl, _, hpos, _, _, hty, _, _,
        hrtid, hrttr, _⟩
      · exact ⟨h1, h2, h3⟩
      · refine ⟨?_, h2, ?_, ?_⟩
        · intro q hq
          rcases List.mem_append.mp hq with hq | hq
          · exact h1 q hq
          · simp only [List.mem_singleton] at hq
            subst hq
            rw [remaining_shares_singleton hrttr hty]
            exact hpos
        · intro q hq
          rcases List.mem_append.mp hq with hq | hq
          · have := h3.1 q hq
            exact ⟨Nat.lt_add_right _ this.1, Nat.lt_add_right _ this.2⟩
          · simp only [List.mem_singleton] at hq
            subst hq
            constructor
            · show pf.next_id < pf.next_id + 2
              omega
            · show rt.id < pf.next_id + 2
              omega
        · intro rt2 hrt2
          have := h3.2 rt2 hrt2
          show rt2.id < pf.next_id + 2
          omega
    · exact absurd h (by simp)
  | addPos rid d price shares reason =>
    simp only [applyOp] at h
    split at h
    · rename_i b pfx heq
      simp only [Except.ok.injEq] at h
      subst h
      rcases add_to_position_spec heq with ⟨rt, hrt, ⟨_, rfl⟩ | ⟨txn, htxn, hpos, _, _, rfl⟩⟩
      · exact ⟨h1, h2, h3⟩
      · have hmem := lookupRT_mem hrt
        have hb : rid < pf.next_id ∧ rt.id < pf.next_id := h3.1 _ hmem
        refine ⟨?_, h2, ?_, ?_⟩
        · intro q hq
          rcases mem_updateRT hq with hq | hq
          · exact h1 q hq
          · subst hq
            rw [remaining_add_transaction]
            have hold : 0 < rt.remaining_shares := h1 _ hmem
            subst htxn
            simp only [TxType.isEntry]
            have hs : (0:ℚ) < pf.round_shares shares := hpos
            simp only [if_pos]
            linarith
        · intro q hq
          rcases mem_updateRT hq with hq | hq
          · have := h3.1 q hq
            exact ⟨Nat.lt_add_right _ this.1, Nat.lt_add_right _ this.2⟩
          · subst hq
            constructor
            · show rid < pf.next_id + 1
              omega
            · show (rt.add_transaction txn).id < pf.next_id + 1
              rw [add_transaction_id]
              omega
        · intro rt2 hrt2
          have := h3.2 rt2 hrt2
          show rt2.id < pf.next_id + 1
          omega
    · exact absurd h (by simp)
  | reducePos rid d price shares reason =>
    simp only [applyOp] at h
    split at h
    · rename_i pnl pfx heq
      simp only [Except.ok.injEq] at h
      subst h
      exact reduce_position_inv heq h1 h2 h3
    · exact absurd h (by simp)
  | closePos rid d price reason =>
    simp only [applyOp] at h
    split at h
    · rename_i pnl pfx heq
      simp only [Except.ok.injEq] at h
      subst h
      obtain ⟨rt0, hrt0, heq2⟩ := close_position_spec heq
      exact reduce_position_inv heq2 h1 h2 h3
    · exact absurd h (by simp)

theorem runOps_inv {pf pf2 : Portfolio} {ops : List Op}
    (h : runOps pf ops = Except.ok pf2)
    (h1 : OpenInv pf) (h2 : ClosedInv pf) (h3 : IdInv pf) :
    OpenInv pf2 ∧ ClosedInv pf2 ∧ IdInv pf2 := by
  induction ops generalizing pf with
  | nil =>
    unfold runOps at h
    simp only [Except.ok.injEq] at h
    subst h
    exact ⟨h1, h2, h3⟩
  | cons op rest ih =>
    unfold runOps at h
    split at h
    · rename_i pfmid heq
      obtain ⟨g1, g2, g3⟩ := applyOp_inv heq h1 h2 h3
      exact ih h g1 g2 g3
    · exact absurd h (by simp)

theorem reachable_inv {pf : Portfolio} (h : Reachable pf) :
    OpenInv pf ∧ ClosedInv pf ∧ IdInv pf := by
  obtain ⟨sc, mp, tc, fs, ops, hops⟩ := h
  refine runOps_inv hops ?_ ?_ ?_
  · intro q hq
    simp [mkPortfolio] at hq
  · intro rt hrt
    simp [mkPortfolio] at hrt
  · constructor
    · intro q hq
      simp [mkPortfolio] at hq
    · intro rt hrt
      simp [mkPortfolio] at hrt

/-- C1: Cash conservation — after any successful sequence of ledger
operations from a fresh portfolio, the final cash equals the starting
capital minus the sum of the `calculate_entry_cost` values of the logged
open/add transactions plus the sum of the `calculate_exit_value` values
of the logged reduce/close transactions, exactly, for every commission
and slippage configuration (refused sentinel operations execute no
transaction and contribute no cost). -/
theorem C1_cash_conservation (sc : ℚ) (mp : ℤ) (tc : TransactionCost) (fs : Bool)
    (ops : List Op) (pf : Portfolio)
    (h : runOps (mkPortfolio sc mp tc fs) ops = Except.ok pf) :
    pf.cash = sc - entrySum tc pf.transaction_log + exitSum tc pf.transaction_log := by
  obtain ⟨_, _, _, _, _, ts, hlog, hcash⟩ := runOps_delta h
  have hlog2 : pf.transaction_log = ts := by simpa [mkPortfolio] using hlog
  rw [hlog2]
  simpa [mkPortfolio] using hcash

/-- C1 witness: a concrete open/add/reduce/close lifecycle at zero cost:
cash ends at the value predicted by the conservation law. -/
theorem C1_witness :
    runOps (mkPortfolio 1000 2 zeroTC true) opsW = Except.ok pfW2 ∧
    pfW2.cash = 1000 - entrySum zeroTC pfW2.transaction_log
      + exitSum zeroTC pfW2.transaction_log := by
  have h : runOps (mkPortfolio 1000 2 zeroTC true) opsW = Except.ok pfW2 := by
    norm_num [runOps, applyOp, opsW, pfW2, pfW0, mkPortfolio, Portfolio.open_position,
      Portfolio.add_to_position, Portfolio.reduce_position, Portfolio.close_position,
      Portfolio.round_shares, Portfolio.can_open_position,
      TransactionCost.calculate_entry_cost, TransactionCost.calculate_exit_value,
      TransactionCost.entryCostVal, TransactionCost.exitValueVal, lookupRT, updateRT,
      eraseRT, RoundTrip.add_transaction, RoundTrip.remaining_shares,
      RoundTrip.average_entry_price, RoundTrip.total_shares, TxType.isEntry, TxType.isExit,
      List.filter, zeroTC, ruleT30, noMeta]
  exact ⟨h, C1_cash_conservation 1000 2 zeroTC true opsW pfW2 h⟩

/-- C2: Share conservation — in every state reached by a successful
operation sequence, each roundtrip's `remaining_shares` is the sum of
its open/add shares minus the sum of its reduce/close shares and is
nonnegative (strictly positive while open, zero once closed), and
`reduce_position` requesting more than `remaining_shares` raises. -/
theorem C2_share_conservation (sc : ℚ) (mp : ℤ) (tc : TransactionCost) (fs : Bool)
    (ops : List Op) (pf : Portfolio)
    (h : runOps (mkPortfolio sc mp tc fs) ops = Except.ok pf) :
    (∀ p ∈ pf.open_roundtrips,
      p.2.remaining_shares
        = ((p.2.transactions.filter fun t => t.transaction_type.isEntry).map fun t =>
            t.shares).sum
          - ((p.2.transactions.filter fun t => t.transaction_type.isExit).map fun t =>
            t.shares).sum
      ∧ 0 ≤ p.2.remaining_shares) ∧
    (∀ rt ∈ pf.closed_roundtrips,
      rt.remaining_shares
        = ((rt.transactions.filter fun t => t.transaction_type.isEntry).map fun t =>
            t.shares).sum
          - ((rt.transactions.filter fun t => t.transaction_type.isExit).map fun t =>
            t.shares).sum
      ∧ 0 ≤ rt.remaining_shares) ∧
    (∀ rid rt d price shares reason,
      lookupRT pf.open_roundtrips rid = some rt →
      rt.remaining_shares < shares →
      pf.reduce_position rid d price shares reason
        = Except.error "Cannot exit more shares than available") := by
  obtain ⟨ho, hc, _⟩ := reachable_inv ⟨sc, mp, tc, fs, ops, h⟩
  refine ⟨?_, ?_, ?_⟩
  · intro p hp
    exact ⟨rfl, le_of_lt (ho p hp)⟩
  · intro rt hrt
    exact ⟨rfl, le_of_eq (hc rt hrt).symm⟩
  · intro rid rt d price shares reason hlk hover
    unfold Portfolio.reduce_position
    rw [hlk]
    dsimp only []
    rw [if_pos hover]

/-- C2 witness: after opening 5 shares, the open roundtrip has 5
remaining shares and a request for 6 raises. -/
theorem C2_witness :
    runOps (mkPortfolio 1000 2 zeroTC true)
      [Op.openPos "AAPL" 0 10 5 ruleT30 noMeta] = Except.ok pfW1 ∧
    lookupRT pfW1.open_roundtrips 0 = some rtW1 ∧
    rtW1.remaining_shares < 6 ∧
    0 ≤ rtW1.remaining_shares ∧
    pfW1.reduce_position 0 1 11 6 "r"
      = Except.error "Cannot exit more shares than available" := by
  have h : runOps (mkPortfolio 1000 2 zeroTC true)
      [Op.openPos "AAPL" 0 10 5 ruleT30 noMeta] = Except.ok pfW1 := by
    norm_num [runOps, applyOp, pfW1, pfW0, mkPortfolio, Portfolio.open_position,
      Portfolio.round_shares, Portfolio.can_open_position,
      TransactionCost.calculate_entry_cost, TransactionCost.entryCostVal,
      zeroTC, ruleT30, noMeta]
  have hlk : lookupRT pfW1.open_roundtrips 0 = some rtW1 := by
    norm_num [rtW1, pfW1, pfW0, mkPortfolio, Portfolio.open_position,
      Portfolio.round_shares, Portfolio.can_open_position,
      TransactionCost.calculate_entry_cost, TransactionCost.entryCostVal,
      zeroTC, ruleT30, noMeta, lookupRT]
  have hrem : rtW1.remaining_shares = 5 := by
    norm_num [rtW1, pfW1, pfW0, mkPortfolio, Portfolio.open_position,
      Portfolio.round_shares, Portfolio.can_open_position,
      TransactionCost.calculate_entry_cost, TransactionCost.entryCostVal,
      zeroTC, ruleT30, noMeta, lookupRT, RoundTrip.remaining_shares,
      RoundTrip.add_transaction, TxType.isEntry, TxType.isExit, List.filter]
  refine ⟨h, hlk, by rw [hrem]; norm_num, by rw [hrem]; norm_num, ?_⟩
  exact (C2_share_conservation 1000 2 zeroTC true
    [Op.openPos "AAPL" 0 10 5 ruleT30 noMeta] pfW1 h).2.2
    0 rtW1 1 11 6 "r" hlk (by rw [hrem]; norm_num)

/-- C10: calling `reduce_position` with non-positive shares on an open
roundtrip (with nonnegative remaining shares, as every reachable state
guarantees) is not refused with a sentinel: it raises the `ValueError`
originating in `TransactionCost.calculate_exit_value`, and since no
mutation precedes that raise in the source, the portfolio state is
unchanged — the raising operation returns only the error. -/
theorem C10_reduce_nonpositive_shares (pf : Portfolio) (rid : ℕ) (rt : RoundTrip)
    (d : ℤ) (price shares : ℚ) (reason : String)
    (hlk : lookupRT pf.open_roundtrips rid = some rt)
    (hrem : 0 ≤ rt.remaining_shares)
    (hsh : shares ≤ 0) :
    pf.reduce_position rid d price shares reason
      = Except.error "Shares must be positive" := by
  unfold Portfolio.reduce_position
  rw [hlk]
  dsimp only []
  rw [if_neg (not_lt.mpr (le_trans hsh hrem))]
  unfold TransactionCost.calculate_exit_value
  rw [if_pos hsh]

/-- C10 witness: a zero-share reduce on the concrete open position
raises the shares `ValueError`. -/
theorem C10_witness :
    lookupRT pfW1.open_roundtrips 0 = some rtW1 ∧
    0 ≤ rtW1.remaining_shares ∧ (0:ℚ) ≤ 0 ∧
    pfW1.reduce_position 0 1 11 0 "r" = Except.error "Shares must be positive" := by
  have hlk : lookupRT pfW1.open_roundtrips 0 = some rtW1 := by
    norm_num [rtW1, pfW1, pfW0, mkPortfolio, Portfolio.open_position,
      Portfolio.round_shares, Portfolio.can_open_position,
      TransactionCost.calculate_entry_cost, TransactionCost.entryCostVal,
      zeroTC, ruleT30, noMeta, lookupRT]
  have hrem : rtW1.remaining_shares = 5 := by
    norm_num [rtW1, pfW1, pfW0, mkPortfolio, Portfolio.open_position,
      Portfolio.round_shares, Portfolio.can_open_position,
      TransactionCost.calculate_entry_cost, TransactionCost.entryCostVal,
      zeroTC, ruleT30, noMeta, lookupRT, RoundTrip.remaining_shares,
      RoundTrip.add_transaction, TxType.isEntry, TxType.isExit, List.filter]
  exact ⟨hlk, by rw [hrem]; norm_num, le_refl 0,
    C10_reduce_nonpositive_shares pfW1 0 rtW1 1 11 0 "r" hlk
      (by rw [hrem]; norm_num) (le_refl 0)⟩

/-- C3: `open_position` refusal is a sentinel with no state change —
for a positive price, it returns `None` with the state untouched exactly
when the rounded shares are non-positive, the portfolio is at capacity,
or the entry cost exceeds cash; otherwise it debits the entry cost,
creates a roundtrip holding exactly one `open` transaction, registers it
in the open dict, and appends that same transaction to the flat log.
(A non-positive price instead raises inside `calculate_entry_cost`,
outside the data model's `price > 0` domain.) -/
theorem C3_open_position_refusal (pf : Portfolio) (ticker : String) (d : ℤ)
    (price shares0 : ℚ) (rule : ExitRule) (meta : SignalMeta)
    (hp : 0 < price) :
    (pf.open_position ticker d price shares0 rule meta = Except.ok (none, pf)
      ↔ (pf.round_shares shares0 ≤ 0 ∨ ¬ pf.can_open_position = true
          ∨ pf.cash < pf.transaction_cost.entryCostVal (pf.round_shares shares0) price)) ∧
    (0 < pf.round_shares shares0 → pf.can_open_position = true →
      pf.transaction_cost.entryCostVal (pf.round_shares shares0) price ≤ pf.cash →
      ∃ txn rt,
        pf.open_position ticker d price shares0 rule meta
          = Except.ok (some rt, { pf with
              cash := pf.cash
                - pf.transaction_cost.entryCostVal (pf.round_shares shares0) price
              open_roundtrips := pf.open_roundtrips ++ [(pf.next_id, rt)]
              transaction_log := pf.transaction_log ++ [txn]
              next_id := pf.next_id + 2 }) ∧
        rt.transactions = [txn] ∧ txn.transaction_type = TxType.openTx ∧
        txn.shares = pf.round_shares shares0 ∧ txn.price = price ∧
        txn.net_amount
          = -(pf.transaction_cost.entryCostVal (pf.round_shares shares0) price)) := by
  constructor
  · constructor
    · intro h
      by_cases h1 : pf.round_shares shares0 ≤ 0
      · exact Or.inl h1
      by_cases h2 : pf.can_open_position = true
      case neg => exact Or.inr (Or.inl h2)
      by_cases h3 : pf.cash
          < pf.transaction_cost.entryCostVal (pf.round_shares shares0) price
      · exact Or.inr (Or.inr h3)
      exfalso
      unfold Portfolio.open_position at h
      dsimp only [] at h
      rw [if_neg h1, if_neg (not_not_intro h2),
        calculate_entry_cost_ok' (lt_of_not_le h1) hp] at h
      dsimp only [] at h
      rw [if_neg h3] at h
      simp at h
    · intro h
      unfold Portfolio.open_position
      dsimp only []
      by_cases h1 : pf.round_shares shares0 ≤ 0
      · rw [if_pos h1]
      rcases h with h | h | h
      · exact absurd h h1
      · rw [if_neg h1, if_pos h]
      · by_cases h2 : pf.can_open_position = true
        · rw [if_neg h1, if_neg (not_not_intro h2),
            calculate_entry_cost_ok' (lt_of_not_le h1) hp]
          dsimp only []
          rw [if_pos h]
        · rw [if_neg h1, if_pos h2]
  · intro hs hcap hcash
    unfold Portfolio.open_position
    dsimp only []
    rw [if_neg (not_le.mpr hs), if_neg (not_not_intro hcap),
      calculate_entry_cost_ok' hs hp]
    dsimp only []
    rw [if_neg (not_lt.mpr hcash)]
    exact ⟨_, _, rfl, rfl, rfl, rfl, rfl, rfl⟩

/-- C3 witness: a fresh portfolio accepts a 5-share open at 10, and an
at-capacity portfolio refuses one with `None` and no state change. -/
theorem C3_witness :
    (∃ txn rt,
      pfW0.open_position "AAPL" 0 10 5 ruleT30 noMeta
        = Except.ok (some rt, { pfW0 with
            cash := pfW0.cash
              - pfW0.transaction_cost.entryCostVal (pfW0.round_shares 5) 10
            open_roundtrips := pfW0.open_roundtrips ++ [(pfW0.next_id, rt)]
            transaction_log := pfW0.transaction_log ++ [txn]
            next_id := pfW0.next_id + 2 }) ∧
      rt.transactions = [txn] ∧ txn.transaction_type = TxType.openTx ∧
      txn.shares = pfW0.round_shares 5 ∧ txn.price = 10 ∧
      txn.net_amount
        = -(pfW0.transaction_cost.entryCostVal (pfW0.round_shares 5) 10)) ∧
    pfD0.open_position "CCC" 1 10 5 ruleT30 noMeta = Except.ok (none, pfD0) := by
  constructor
  · refine (C3_open_position_refusal pfW0 "AAPL" 0 10 5 ruleT30 noMeta (by norm_num)).2
      ?_ ?_ ?_
    · norm_num [pfW0, mkPortfolio, Portfolio.round_shares]
    · norm_num [pfW0, mkPortfolio, Portfolio.can_open_position]
    · norm_num [pfW0, mkPortfolio, Portfolio.round_shares,
        TransactionCost.entryCostVal, zeroTC]
  · refine (C3_open_position_refusal pfD0 "CCC" 1 10 5 ruleT30 noMeta (by norm_num)).1.mpr
      (Or.inr (Or.inl ?_))
    norm_num [pfD0, mkPortfolio, Portfolio.open_position, Portfolio.round_shares,
      Portfolio.can_open_position, TransactionCost.calculate_entry_cost,
      TransactionCost.entryCostVal, zeroTC, ruleT1, noMeta]

/-- C4: Idempotent closure — a `reduce_position` of the full remaining
shares appends the roundtrip to the closed list, removes it from the
open dict and appends the reduce transaction all in the same returned
state; any reduce/close/add on an id absent from the open dict raises;
and on a reachable portfolio a successful open always assigns an id
distinct from every closed roundtrip id and every open key, so a closed
roundtrip is never reopened. -/
theorem C4_idempotent_closure (pf : Portfolio) (rid : ℕ) (d d2 : ℤ)
    (price price2 shares2 : ℚ) (reason reason2 : String)
    (pnl : ℚ) (pf2 : Portfolio) (rt : RoundTrip) :
    (lookupRT pf.open_roundtrips rid = some rt →
      pf.reduce_position rid d price rt.remaining_shares reason = Except.ok (pnl, pf2) →
      ∃ rt2 txn,
        pf2.closed_roundtrips = pf.closed_roundtrips ++ [rt2] ∧
        rt2.id = rt.id ∧ rt2.remaining_shares = 0 ∧
        lookupRT pf2.open_roundtrips rid = none ∧
        pf2.transaction_log = pf.transaction_log ++ [txn] ∧
        txn.roundtrip_id = rid ∧ txn.transaction_type = TxType.reduceTx) ∧
    (lookupRT pf.open_roundtrips rid = none →
      pf.reduce_position rid d2 price2 shares2 reason2
          = Except.error "RoundTrip not found" ∧
      pf.close_position rid d2 price2 reason2 = Except.error "RoundTrip not found" ∧
      pf.add_to_position rid d2 price2 shares2 reason2
          = Except.error "RoundTrip not found") ∧
    (Reachable pf →
      ∀ ticker dx px sx rule meta res pfx,
        pf.open_position ticker dx px sx rule meta = Except.ok (some res, pfx) →
        res.id ∉ pf.closed_roundtrips.map RoundTrip.id ∧
        ∀ q ∈ pf.open_roundtrips, q.1 ≠ res.id) := by
  refine ⟨?_, ?_, ?_⟩
  · intro hlk h2
    obtain ⟨rt0, hlk0, hsh, hpos, hpp, txn, htxn, hpnl, hcase⟩ := reduce_position_spec h2
    rw [hlk0] at hlk
    injection hlk with hlk
    subst hlk
    have hrem2 : (rt0.add_transaction txn).remaining_shares = 0 := by
      rw [remaining_add_transaction]
      subst htxn
      simp only [TxType.isEntry, Bool.false_eq_true, if_false]
      ring
    rcases hcase with ⟨hz, rfl⟩ | ⟨hnz, rfl⟩
    · refine ⟨rt0.add_transaction txn, txn, rfl, add_transaction_id rt0 txn, hz,
        lookupRT_eraseRT_self _ _, rfl, ?_, ?_⟩
      · subst htxn
        rfl
      · subst htxn
        rfl
    · exact absurd hrem2 hnz
  · intro hlk
    refine ⟨?_, ?_, ?_⟩
    · unfold Portfolio.reduce_position
      rw [hlk]
    · unfold Portfolio.close_position
      rw [hlk]
    · unfold Portfolio.add_to_position
      rw [hlk]
  · intro hreach ticker dx px sx rule meta res pfx hop
    obtain ⟨_, _, hid⟩ := reachable_inv hreach
    rcases open_position_spec hop with ⟨hnone, _⟩ | ⟨txn, rt2, hres, _, _, _, _, _, _, _, _,
      hrtid, _⟩
    · exact absurd hnone (by simp)
    · simp only [Option.some.injEq] at hres
      subst hres
      constructor
      · intro hmem
        obtain ⟨rt3, hrt3, hideq⟩ := List.mem_map.mp hmem
        have := hid.2 rt3 hrt3
        rw [hideq, hrtid] at this
        omega
      · intro q hq heq
        have := (hid.1 q hq).1
        rw [heq, hrtid] at this
        omega

/-- C4 witness: closing the only position of the concrete portfolio
moves it to the closed list, later operations on its id raise, and a new
open on a reachable state picks a fresh id. -/
theorem C4_witness :
    lookupRT pfW1.open_roundtrips 0 = some rtW1 ∧
    pfW1.reduce_position 0 2 12 rtW1.remaining_shares "exit" = Except.ok (10, pfW3) ∧
    (∃ rt2 txn,
      pfW3.closed_roundtrips = pfW1.closed_roundtrips ++ [rt2] ∧
      rt2.id = rtW1.id ∧ rt2.remaining_shares = 0 ∧
      lookupRT pfW3.open_roundtrips 0 = none ∧
      pfW3.transaction_log = pfW1.transaction_log ++ [txn] ∧
      txn.roundtrip_id = 0 ∧ txn.transaction_type = TxType.reduceTx) ∧
    pfW3.reduce_position 0 3 12 1 "r" = Except.error "RoundTrip not found" ∧
    pfW3.close_position 0 3 12 "r" = Except.error "RoundTrip not found" ∧
    pfW3.add_to_position 0 3 12 1 "r" = Except.error "RoundTrip not found" ∧
    pfW1.open_position "BBB" 1 10 5 ruleT30 noMeta = Except.ok (some rtB, pfB) ∧
    rtB.id ∉ pfW1.closed_roundtrips.map RoundTrip.id ∧
    (∀ q ∈ pfW1.open_roundtrips, q.1 ≠ rtB.id) := by
  have hlk : lookupRT pfW1.open_roundtrips 0 = some rtW1 := by
    norm_num [rtW1, pfW1, pfW0, mkPortfolio, Portfolio.open_position,
      Portfolio.round_shares, Portfolio.can_open_position,
      TransactionCost.calculate_entry_cost, TransactionCost.entryCostVal,
      zeroTC, ruleT30, noMeta, lookupRT]
  have hred : pfW1.reduce_position 0 2 12 rtW1.remaining_shares "exit"
      = Except.ok (10, pfW3) := by
    norm_num [rtW1, pfW3, pfW1, pfW0, mkPortfolio, Portfolio.open_position,
      Portfolio.reduce_position, Portfolio.round_shares, Portfolio.can_open_position,
      TransactionCost.calculate_entry_cost, TransactionCost.calculate_exit_value,
      TransactionCost.entryCostVal, TransactionCost.exitValueVal,
      zeroTC, ruleT30, noMeta, lookupRT, updateRT, eraseRT,
      RoundTrip.add_transaction, RoundTrip.remaining_shares,
      RoundTrip.average_entry_price, RoundTrip.total_shares,
      TxType.isEntry, TxType.isExit, List.filter]
  have hlk3 : lookupRT pfW3.open_roundtrips 0 = none := by
    norm_num [rtW1, pfW3, pfW1, pfW0, mkPortfolio, Portfolio.open_position,
      Portfolio.reduce_position, Portfolio.round_shares, Portfolio.can_open_position,
      TransactionCost.calculate_entry_cost, TransactionCost.calculate_exit_value,
      TransactionCost.entryCostVal, TransactionCost.exitValueVal,
      zeroTC, ruleT30, noMeta, lookupRT, updateRT, eraseRT,
      RoundTrip.add_transaction, RoundTrip.remaining_shares,
      RoundTrip.average_entry_price, RoundTrip.total_shares,
      TxType.isEntry, TxType.isExit, List.filter]
  have hreach : Reachable pfW1 := by
    refine ⟨1000, 2, zeroTC, true, [Op.openPos "AAPL" 0 10 5 ruleT30 noMeta], ?_⟩
    norm_num [runOps, applyOp, pfW1, pfW0, mkPortfolio, Portfolio.open_position,
      Portfolio.round_shares, Portfolio.can_open_position,
      TransactionCost.calculate_entry_cost, TransactionCost.entryCostVal,
      zeroTC, ruleT30, noMeta]
  have hopen : pfW1.open_position "BBB" 1 10 5 ruleT30 noMeta
      = Except.ok (some rtB, pfB) := by
    norm_num [rtB, pfB, openW2, pfW1, pfW0, mkPortfolio, Portfolio.open_position,
      Portfolio.round_shares, Portfolio.can_open_position,
      TransactionCost.calculate_entry_cost, TransactionCost.entryCostVal,
      zeroTC, ruleT30, noMeta]
  have h4a := (C4_idempotent_closure pfW1 0 2 0 12 0 0 "exit" "" 10 pfW3 rtW1).1 hlk hred
  have h4b := (C4_idempotent_closure pfW3 0 0 3 0 12 1 "" "r" 0 pfW3 rtW1).2.1 hlk3
  have h4c := (C4_idempotent_closure pfW1 0 0 0 0 0 0 "" "" 0 pfW1 rtW1).2.2 hreach
    "BBB" 1 10 5 ruleT30 noMeta rtB pfB hopen
  exact ⟨hlk, hred, h4a, h4b.1, h4b.2.1, h4b.2.2, hopen, h4c.1, h4c.2⟩

theorem trail_decide_eq (p peak price : ℚ) (M : PeakMap) :
    (if peak ≤ 0 then (((false : Bool), (0:ℚ), ""), M)
     else if (peak - price) / peak ≥ p then ((true, (1:ℚ), "trailing_stop"), M)
     else ((false, 0, ""), M))
    = ((if 0 < peak ∧ p ≤ (peak - price) / peak
        then ((true : Bool), (1:ℚ), "trailing_stop") else (false, 0, "")), M) := by
  by_cases h0 : peak ≤ 0
  · rw [if_pos h0, if_neg (fun hand => absurd hand.1 (not_lt.mpr h0))]
  · rw [if_neg h0]
    by_cases hr : (peak - price) / peak ≥ p
    · rw [if_pos hr, if_pos ⟨lt_of_not_le h0, hr⟩]
    · rw [if_neg hr, if_neg (fun hand => hr hand.2)]

theorem trailing_should_exit_eval (p : ℚ) (pm : PeakMap) (rt : RoundTrip)
    (d : ℤ) (price : ℚ) :
    (ExitRule.trailingStopExit p).should_exit pm rt d price
      = ((if 0 < max (trailPeak0 pm rt) price
            ∧ p ≤ (max (trailPeak0 pm rt) price - price) / max (trailPeak0 pm rt) price
          then (true, 1, "trailing_stop") else (false, 0, "")),
         pmInsert pm rt.id (max (trailPeak0 pm rt) price)) := by
  simp only [ExitRule.should_exit]
  cases hpm : pm rt.id with
  | none =>
    simp only [trailPeak0, hpm, pmInsert, eq_self_iff_true, if_true]
    by_cases hgt : price > rt.average_entry_price
    · rw [if_pos hgt, max_eq_right (le_of_lt hgt)]
      simp only [pmInsert, eq_self_iff_true, if_true]
      have hM : pmInsert (pmInsert pm rt.id rt.average_entry_price) rt.id price
          = pmInsert pm rt.id price := by
        funext j
        by_cases hj : j = rt.id <;> simp [pmInsert, hj]
      rw [hM]
      exact trail_decide_eq p price price _
    · rw [if_neg hgt, max_eq_left (le_of_not_lt hgt)]
      simp only [pmInsert, eq_self_iff_true, if_true]
      exact trail_decide_eq p rt.average_entry_price price _
  | some pk =>
    simp only [trailPeak0, hpm]
    by_cases hgt : price > pk
    · rw [if_pos hgt, max_eq_right (le_of_lt hgt)]
      simp only [pmInsert, eq_self_iff_true, if_true]
      exact trail_decide_eq p price price _
    · rw [if_neg hgt, max_eq_left (le_of_not_lt hgt), hpm]
      have hM : pm = pmInsert pm rt.id pk := by
        funext j
        by_cases hj : j = rt.id <;> simp [pmInsert, hj, hpm]
      rw [← hM]
      exact trail_decide_eq p pk price pm

/-- C7: TrailingStopExit peak tracking — the stored per-roundtrip peak
is initialized to `average_entry_price` on first evaluation and set to
`max(peak, price)` on every evaluation including non-firing ones, so it
never decreases across calls; the rule fires a full exit with reason
"trailing_stop" exactly when the updated peak is positive and
`(peak - price)/peak ≥ p`.  With `p = 0.10` and entry at 100: a price of
150 stores peak 150 without firing, a later 135 fires, and 137 does
not. -/
theorem C7_trailing_stop (p : ℚ) (pm : PeakMap) (rt : RoundTrip) (d : ℤ) (price : ℚ) :
    (pm rt.id = none →
      ((ExitRule.trailingStopExit p).should_exit pm rt d price).2 rt.id
        = some (max rt.average_entry_price price)) ∧
    (∀ pk, pm rt.id = some pk →
      ((ExitRule.trailingStopExit p).should_exit pm rt d price).2 rt.id
        = some (max pk price) ∧ pk ≤ max pk price) ∧
    (((ExitRule.trailingStopExit p).should_exit pm rt d price).1
      = if 0 < max (trailPeak0 pm rt) price
            ∧ p ≤ (max (trailPeak0 pm rt) price - price) / max (trailPeak0 pm rt) price
        then (true, 1, "trailing_stop") else (false, 0, "")) ∧
    ((ExitRule.trailingStopExit (1/10)).should_exit pmEmpty rtEntry100 1 150).1
        = (false, 0, "") ∧
    ((ExitRule.trailingStopExit (1/10)).should_exit pmEmpty rtEntry100 1 150).2 0
        = some 150 ∧
    ((ExitRule.trailingStopExit (1/10)).should_exit
        (((ExitRule.trailingStopExit (1/10)).should_exit pmEmpty rtEntry100 1 150).2)
        rtEntry100 2 135).1 = (true, 1, "trailing_stop") ∧
    ((ExitRule.trailingStopExit (1/10)).should_exit
        (((ExitRule.trailingStopExit (1/10)).should_exit pmEmpty rtEntry100 1 150).2)
        rtEntry100 2 137).1 = (false, 0, "") := by
  have havg : rtEntry100.average_entry_price = 100 := by
    norm_num [rtEntry100, txnOpen100, RoundTrip.average_entry_price,
      RoundTrip.total_shares, RoundTrip.add_transaction, TxType.isEntry,
      List.filter, ruleT30, noMeta]
  have hid : rtEntry100.id = 0 := rfl
  have h150 := trailing_should_exit_eval (1/10) pmEmpty rtEntry100 1 150
  have hpk150 : trailPeak0 pmEmpty rtEntry100 = 100 := by
    rw [trailPeak0]
    simp [pmEmpty, havg]
  refine ⟨?_, ?_, ?_, ?_, ?_, ?_, ?_⟩
  · intro hnone
    rw [trailing_should_exit_eval]
    simp [pmInsert, trailPeak0, hnone]
  · intro pk hpk
    rw [trailing_should_exit_eval]
    constructor
    · simp [pmInsert, trailPeak0, hpk]
    · exact le_max_left _ _
  · rw [trailing_should_exit_eval]
  · rw [h150, hpk150]
    norm_num
  · rw [h150, hpk150, hid]
    norm_num [pmInsert]
  · rw [trailing_should_exit_eval, h150]
    have : trailPeak0 (pmInsert pmEmpty rtEntry100.id
        (max (trailPeak0 pmEmpty rtEntry100) 150)) rtEntry100 = 150 := by
      rw [trailPeak0, hpk150]
      simp [pmInsert]
      norm_num
    rw [this]
    norm_num
  · rw [trailing_should_exit_eval, h150]
    have : trailPeak0 (pmInsert pmEmpty rtEntry100.id
        (max (trailPeak0 pmEmpty rtEntry100) 150)) rtEntry100 = 150 := by
      rw [trailPeak0, hpk150]
      simp [pmInsert]
      norm_num
    rw [this]
    norm_num

/-- C7 witness: the theorem instantiated at the scenario roundtrip with
an empty peak table — first evaluation stores `max(100, 150) = 150`. -/
theorem C7_witness :
    pmEmpty rtEntry100.id = none ∧
    ((ExitRule.trailingStopExit (1/10)).should_exit pmEmpty rtEntry100 1 150).2
        rtEntry100.id
      = some (max rtEntry100.average_entry_price 150) := by
  exact ⟨rfl, (C7_trailing_stop (1/10) pmEmpty rtEntry100 1 150).1 rfl⟩

/-- C6: CompositeExitRule precedence and portion override — constructing
with an empty list raises; sub-rules are evaluated strictly in order,
the first firing sub-rule decides, keeping its reason but with the slot
portion substituted for its own, and later sub-rules are not evaluated;
when no sub-rule fires the result is `(False, 0.0, "")`.  For the
stop-then-time composite of the spec, a position entered at 100 priced
90 on day 10 exits with "stop_loss" and priced 100 on day 35 exits with
"time_exit". -/
theorem C6_composite_exit_rule (rules : List (ExitRule × ℚ)) (rule : ExitRule)
    (portion : ℚ) (pm : PeakMap) (rt : RoundTrip) (d : ℤ) (price : ℚ) :
    mkCompositeExitRule [] = Except.error "CompositeExitRule requires at least one rule" ∧
    ((rule.should_exit pm rt d price).1.1 = true →
      (ExitRule.compositeExitRule ((rule, portion) :: rules)).should_exit pm rt d price
        = ((true, portion, (rule.should_exit pm rt d price).1.2.2),
           (rule.should_exit pm rt d price).2)) ∧
    ((rule.should_exit pm rt d price).1.1 = false →
      (ExitRule.compositeExitRule ((rule, portion) :: rules)).should_exit pm rt d price
        = (ExitRule.compositeExitRule rules).should_exit
            ((rule.should_exit pm rt d price).2) rt d price) ∧
    ((ExitRule.compositeExitRule []).should_exit pm rt d price = ((false, 0, ""), pm)) ∧
    (compW.should_exit pmEmpty rtEntry100 10 90).1 = (true, 1, "stop_loss") ∧
    (compW.should_exit pmEmpty rtEntry100 35 100).1 = (true, 1, "time_exit") := by
  refine ⟨rfl, ?_, ?_, ?_, ?_, ?_⟩
  · intro hfire
    simp only [ExitRule.should_exit, ExitRule.should_exit_list]
    rw [if_pos hfire]
  · intro hfire
    simp only [ExitRule.should_exit, ExitRule.should_exit_list]
    rw [if_neg (by simp [hfire])]
  · simp only [ExitRule.should_exit, ExitRule.should_exit_list]
  · norm_num [compW, ExitRule.should_exit, ExitRule.should_exit_list, pmEmpty,
      rtEntry100, txnOpen100, RoundTrip.add_transaction, RoundTrip.average_entry_price,
      RoundTrip.total_shares, TxType.isEntry, TxType.isExit, List.filter, noMeta, ruleT30]
  · norm_num [compW, ExitRule.should_exit, ExitRule.should_exit_list, pmEmpty,
      rtEntry100, txnOpen100, RoundTrip.add_transaction, RoundTrip.average_entry_price,
      RoundTrip.total_shares, RoundTrip.get_holding_days, TxType.isEntry, TxType.isExit,
      List.filter, noMeta, ruleT30]

/-- C6 witness: the theorem instantiated on the spec scenario composite
with a firing stop-loss head — the slot portion and the sub-rule reason
are returned. -/
theorem C6_witness :
    ((ExitRule.stopLossExit (8/100)).should_exit pmEmpty rtEntry100 10 90).1.1 = true ∧
    (ExitRule.compositeExitRule
        [(ExitRule.stopLossExit (8/100), 1), (ExitRule.timeBasedExit 30, 1)]).should_exit
        pmEmpty rtEntry100 10 90
      = ((true, 1,
          ((ExitRule.stopLossExit (8/100)).should_exit pmEmpty rtEntry100 10 90).1.2.2),
         ((ExitRule.stopLossExit (8/100)).should_exit pmEmpty rtEntry100 10 90).2) := by
  have hfire : ((ExitRule.stopLossExit (8/100)).should_exit pmEmpty rtEntry100 10 90).1.1
      = true := by
    norm_num [ExitRule.should_exit, rtEntry100, txnOpen100, RoundTrip.add_transaction,
      RoundTrip.average_entry_price, RoundTrip.total_shares, TxType.isEntry,
      List.filter, noMeta, ruleT30]
  exact ⟨hfire,
    (C6_composite_exit_rule [(ExitRule.timeBasedExit 30, 1)] (ExitRule.stopLossExit (8/100))
      1 pmEmpty rtEntry100 10 90).2.1 hfire⟩

/-- C9 (amended): PositionSizer contract — every variant raises an
invalid-input error when `price ≤ 0`; for `price > 0`, provided the
capacity divisor used by `EqualWeight` is nonzero (with a zero
`max_positions` the Python division raises `ZeroDivisionError`), a
validly constructed sizer never raises and returns a share count ≥ 0,
returning exactly 0 when the allocation is non-positive or, for
`FixedShares`, when the required cash exceeds the available cash. -/
theorem C9_position_sizer_contract (s : PositionSizer)
    (price available_cash portfolio_value : ℚ) (pmx : Option ℤ) :
    (price ≤ 0 →
      s.calculate_shares price available_cash portfolio_value pmx
        = Except.error "price must be positive") ∧
    (0 < price → s.validB = true → s.divisorOkB pmx = true →
      ∃ q, s.calculate_shares price available_cash portfolio_value pmx = Except.ok q
        ∧ 0 ≤ q) ∧
    (0 < price → s.divisorOkB pmx = true →
      s.zeroAllocCond price available_cash portfolio_value pmx →
      s.calculate_shares price available_cash portfolio_value pmx = Except.ok 0) := by
  refine ⟨?_, ?_, ?_⟩
  · intro hp
    unfold PositionSizer.calculate_shares
    rw [if_pos hp]
  · intro hp hv hd
    unfold PositionSizer.calculate_shares
    rw [if_neg (not_le.mpr hp)]
    cases s with
    | fixedDollarAmount a =>
      dsimp only []
      by_cases h : min a available_cash ≤ 0
      · rw [if_pos h]
        exact ⟨0, rfl, le_refl 0⟩
      · rw [if_neg h]
        exact ⟨_, rfl, div_nonneg (le_of_lt (lt_of_not_le h)) (le_of_lt hp)⟩
    | percentPortfolio pct =>
      dsimp only []
      by_cases h : min (portfolio_value * pct) available_cash ≤ 0
      · rw [if_pos h]
        exact ⟨0, rfl, le_refl 0⟩
      · rw [if_neg h]
        exact ⟨_, rfl, div_nonneg (le_of_lt (lt_of_not_le h)) (le_of_lt hp)⟩
    | percentAvailableCash pct =>
      dsimp only []
      by_cases h : available_cash * pct ≤ 0
      · rw [if_pos h]
        exact ⟨0, rfl, le_refl 0⟩
      · rw [if_neg h]
        exact ⟨_, rfl, div_nonneg (le_of_lt (lt_of_not_le h)) (le_of_lt hp)⟩
    | equalWeight dmp =>
      dsimp only []
      have hmp : ¬ pmx.getD dmp = 0 := by
        simpa [PositionSizer.divisorOkB] using hd
      rw [if_neg hmp]
      by_cases h : available_cash / ((pmx.getD dmp : ℤ) : ℚ) ≤ 0
      · rw [if_pos h]
        exact ⟨0, rfl, le_refl 0⟩
      · rw [if_neg h]
        exact ⟨_, rfl, div_nonneg (le_of_lt (lt_of_not_le h)) (le_of_lt hp)⟩
    | fixedShares sh =>
      have hsh : 0 < sh := by simpa [PositionSizer.validB] using hv
      dsimp only []
      by_cases h : sh * price > available_cash
      · rw [if_pos h]
        exact ⟨0, rfl, le_refl 0⟩
      · rw [if_neg h]
        exact ⟨sh, rfl, le_of_lt hsh⟩
    | riskParity b tv ma =>
      dsimp only []
      by_cases h : min b available_cash ≤ 0
      · rw [if_pos h]
        exact ⟨0, rfl, le_refl 0⟩
      · rw [if_neg h]
        exact ⟨_, rfl, div_nonneg (le_of_lt (lt_of_not_le h)) (le_of_lt hp)⟩
  · intro hp hd hz
    unfold PositionSizer.calculate_shares
    rw [if_neg (not_le.mpr hp)]
    cases s with
    | fixedDollarAmount a =>
      dsimp only []
      rw [if_pos (show min a available_cash ≤ 0 from hz)]
    | percentPortfolio pct =>
      dsimp only []
      rw [if_pos (show min (portfolio_value * pct) available_cash ≤ 0 from hz)]
    | percentAvailableCash pct =>
      dsimp only []
      rw [if_pos (show available_cash * pct ≤ 0 from hz)]
    | equalWeight dmp =>
      dsimp only []
      have hmp : ¬ pmx.getD dmp = 0 := by
        simpa [PositionSizer.divisorOkB] using hd
      rw [if_neg hmp,
        if_pos (show available_cash / ((pmx.getD dmp : ℤ) : ℚ) ≤ 0 from hz)]
    | fixedShares sh =>
      dsimp only []
      rw [if_pos (show sh * price > available_cash from hz)]
    | riskParity b tv ma =>
      dsimp only []
      rw [if_pos (show min b available_cash ≤ 0 from hz)]

/-- C9 counterexample: the claim as frozen says `calculate_shares` never
raises for a positive price, but `EqualWeight` given a portfolio whose
`max_positions` is 0 divides by zero and raises even though the sizer is
validly constructed and the price is positive. -/
theorem C9_counterexample :
    PositionSizer.validB (PositionSizer.equalWeight 10) = true ∧ (0:ℚ) < 1 ∧
    PositionSizer.calculate_shares (PositionSizer.equalWeight 10) 1 100 100 (some 0)
      = Except.error "division by zero" := by
  refine ⟨by norm_num [PositionSizer.validB], by norm_num, ?_⟩
  norm_num [PositionSizer.calculate_shares]

/-- C9 witness: a fixed-dollar sizer at price 100 returns a nonnegative
count, and a negative price raises the invalid-input error. -/
theorem C9_witness :
    (0:ℚ) < 100 ∧
    PositionSizer.validB (PositionSizer.fixedDollarAmount 5000) = true ∧
    PositionSizer.divisorOkB (PositionSizer.fixedDollarAmount 5000) none = true ∧
    (∃ q, PositionSizer.calculate_shares (PositionSizer.fixedDollarAmount 5000)
        100 10000 10000 none = Except.ok q ∧ 0 ≤ q) ∧
    PositionSizer.calculate_shares (PositionSizer.equalWeight 10) (-1) 100 100 none
      = Except.error "price must be positive" := by
  refine ⟨by norm_num, by norm_num [PositionSizer.validB], rfl, ?_, ?_⟩
  · exact (C9_position_sizer_contract (PositionSizer.fixedDollarAmount 5000)
      100 10000 10000 none).2.1 (by norm_num) (by norm_num [PositionSizer.validB]) rfl
  · exact (C9_position_sizer_contract (PositionSizer.equalWeight 10)
      (-1) 100 100 none).1 (by norm_num)

theorem signalLE_trans (a b c : Signal) (h1 : signalLE a b) (h2 : signalLE b c) :
    signalLE a c := by
  simp only [signalLE, decide_eq_true_eq] at h1 h2 ⊢
  exact le_trans h2 h1

theorem signalLE_total (a b : Signal) : signalLE a b || signalLE b a := by
  simp only [signalLE]
  rcases le_total a.priority b.priority with h | h <;> simp [h]

/-- C8: Signal generation order — `generate_signals` evaluates every
entry rule for every ticker (tickers outer, rules inner), keeps the
non-empty signals, and returns a permutation of that discovery list
sorted by priority descending; the sort is stable: for each priority
level, the relative (discovery) order of equal-priority signals is
preserved. -/
theorem C8_generate_signals (univ : List String) (entry_rules : List EntryRule)
    (d : ℤ) (po : Option Portfolio) :
    collect_signals univ entry_rules d po
      = univ.flatMap (fun ticker =>
          entry_rules.filterMap fun rule => rule.should_enter ticker d po) ∧
    (generate_signals univ entry_rules d po).Pairwise
      (fun a b => b.priority ≤ a.priority) ∧
    (generate_signals univ entry_rules d po).Perm
      (collect_signals univ entry_rules d po) ∧
    (∀ p : ℚ,
      (generate_signals univ entry_rules d po).filter (fun s => decide (s.priority = p))
        = (collect_signals univ entry_rules d po).filter
            (fun s => decide (s.priority = p))) := by
  refine ⟨rfl, ?_, ?_, ?_⟩
  · have := List.sorted_mergeSort
      (fun a b c => signalLE_trans a b c) (fun a b => signalLE_total a b)
      (collect_signals univ entry_rules d po)
    exact this.imp fun h => by simpa [signalLE, decide_eq_true_eq] using h
  · exact List.mergeSort_perm _ _
  · intro p
    set P : Signal → Bool := fun s => decide (s.priority = p) with hP
    set c := (collect_signals univ entry_rules d po).filter P with hc
    have hmem : ∀ a ∈ c, a.priority = p := by
      intro a ha
      have := (List.mem_filter.mp ha).2
      simpa [hP] using this
    have hpair : c.Pairwise (fun a b => signalLE a b = true) := by
      apply List.pairwise_of_forall_mem_list
      intro a ha b hb
      simp [signalLE, hmem a ha, hmem b hb]
    have hsub : List.Sublist c ((collect_signals univ entry_rules d po).mergeSort signalLE) :=
      List.sublist_mergeSort (fun a b c => signalLE_trans a b c)
        (fun a b => signalLE_total a b) hpair (List.filter_sublist _)
    have hsub2 : List.Sublist (c.filter P)
        (((collect_signals univ entry_rules d po).mergeSort signalLE).filter P) :=
      hsub.filter P
    have hff : c.filter P = c := by
      rw [hc, List.filter_filter]
      simp
    rw [hff] at hsub2
    have hperm : List.Perm
        (((collect_signals univ entry_rules d po).mergeSort signalLE).filter P) c :=
      (List.mergeSort_perm (collect_signals univ entry_rules d po) signalLE).filter P
    exact (List.Sublist.eq_of_length hsub2 hperm.length_eq.symm).symm

theorem reduce_position_log {pf pf2 : Portfolio} {rid : ℕ} {d : ℤ}
    {price shares : ℚ} {reason : String} {pnl : ℚ}
    (h : pf.reduce_position rid d price shares reason = Except.ok (pnl, pf2)) :
    ∃ t, pf2.transaction_log = pf.transaction_log ++ [t]
      ∧ t.transaction_type = TxType.reduceTx := by
  obtain ⟨rt, _, _, _, _, txn, htxn, _, hcase⟩ := reduce_position_spec h
  rcases hcase with ⟨_, rfl⟩ | ⟨_, rfl⟩ <;> exact ⟨txn, rfl, by rw [htxn]⟩

theorem close_position_log {pf pf2 : Portfolio} {rid : ℕ} {d : ℤ}
    {price : ℚ} {reason : String} {pnl : ℚ}
    (h : pf.close_position rid d price reason = Except.ok (pnl, pf2)) :
    ∃ t, pf2.transaction_log = pf.transaction_log ++ [t]
      ∧ t.transaction_type = TxType.reduceTx := by
  obtain ⟨rt, _, h2⟩ := close_position_spec h
  exact reduce_position_log h2

theorem execute_exits_log (d : ℤ) :
    ∀ (l : List (ℕ × ℚ × ℚ × String)) (pf pf2 : Portfolio),
      execute_exits pf d l = Except.ok pf2 →
      ∃ ts, pf2.transaction_log = pf.transaction_log ++ ts
        ∧ ∀ t ∈ ts, t.transaction_type = TxType.reduceTx := by
  intro l
  induction l with
  | nil =>
    intro pf pf2 h
    simp only [execute_exits, Except.ok.injEq] at h
    subst h
    exact ⟨[], by simp, by simp⟩
  | cons x rest ih =>
    intro pf pf2 h
    obtain ⟨rid, portion, price, reason⟩ := x
    unfold execute_exits at h
    split at h
    · exact absurd h (by simp)
    · rename_i rt hrt
      dsimp only [] at h
      split at h
      · split at h
        · rename_i v pfmid heq
          obtain ⟨pnl2, pfmid2⟩ := v
          obtain ⟨t, hlog1, hty1⟩ := close_position_log heq
          obtain ⟨ts, hlog2, hty2⟩ := ih _ _ h
          refine ⟨t :: ts, ?_, ?_⟩
          · rw [hlog2, hlog1, List.append_assoc]
            rfl
          · intro u hu
            rcases List.mem_cons.mp hu with rfl | hu
            · exact hty1
            · exact hty2 u hu
        · exact absurd h (by simp)
      · split at h
        · rename_i v pfmid heq
          obtain ⟨pnl2, pfmid2⟩ := v
          obtain ⟨t, hlog1, hty1⟩ := reduce_position_log heq
          obtain ⟨ts, hlog2, hty2⟩ := ih _ _ h
          refine ⟨t :: ts, ?_, ?_⟩
          · rw [hlog2, hlog1, List.append_assoc]
            rfl
          · intro u hu
            rcases List.mem_cons.mp hu with rfl | hu
            · exact hty1
            · exact hty2 u hu
        · exact absurd h (by simp)

theorem process_exits_log {pf pf2 : Portfolio} {pm pm2 : PeakMap} {d : ℤ}
    {prices : String → Option ℚ}
    (h : process_exits pf pm d prices = Except.ok (pf2, pm2)) :
    ∃ ts, pf2.transaction_log = pf.transaction_log ++ ts
      ∧ ∀ t ∈ ts, t.transaction_type = TxType.reduceTx := by
  unfold process_exits at h
  dsimp only [] at h
  split at h
  · rename_i pfx heq
    simp only [Except.ok.injEq, Prod.mk.injEq] at h
    obtain ⟨rfl, -⟩ := h
    exact execute_exits_log d _ pf _ heq
  · exact absurd h (by simp)

theorem process_entries_go_log (sizer : PositionSizer) (default_rule : ExitRule)
    (d : ℤ) (prices : String → Option ℚ) :
    ∀ (sigs : List Signal) (pf pf2 : Portfolio),
      process_entries_go sizer default_rule d prices pf sigs = Except.ok pf2 →
      ∃ ts, pf2.transaction_log = pf.transaction_log ++ ts
        ∧ ∀ t ∈ ts, t.transaction_type = TxType.openTx := by
  intro sigs
  induction sigs with
  | nil =>
    intro pf pf2 h
    simp only [process_entries_go, Except.ok.injEq] at h
    subst h
    exact ⟨[], by simp, by simp⟩
  | cons s rest ih =>
    intro pf pf2 h
    unfold process_entries_go at h
    split at h
    · simp only [Except.ok.injEq] at h
      subst h
      exact ⟨[], by simp, by simp⟩
    · split at h
      · exact absurd h (by simp)
      · rename_i price hprice
        dsimp only [] at h
        split at h
        · exact absurd h (by simp)
        · rename_i shares hshares
          split at h
          · exact ih _ _ h
          · split at h
            · exact absurd h (by simp)
            · rename_i v pfmid heq
              obtain ⟨ts, hlog2, hty2⟩ := ih _ _ h
              rcases open_position_spec heq with ⟨_, rfl⟩ | ⟨txn, rt, _, rfl, _, _, _, _,
                hty, _⟩
              · exact ⟨ts, hlog2, hty2⟩
              · refine ⟨txn :: ts, ?_, ?_⟩
                · rw [hlog2]
                  simp only [List.append_assoc]
                  rfl
                · intro u hu
                  rcases List.mem_cons.mp hu with rfl | hu
                  · exact hty
                  · exact hty2 u hu

/-- C5: Daily ordering — in `process_day`, every firing exit is applied
to the portfolio before any entry signal is considered: the day's
transaction-log increment is a block of reduce transactions (the exits)
followed by a block of open transactions (the entries), signal
generation and entry processing run against the post-exit portfolio, so
slots and cash freed by the day's exits are available to that day's
entries, and the trailing equity sample changes no transaction. -/
theorem C5_exits_before_entries (sizer : PositionSizer) (default_rule : ExitRule)
    (sigGen : Portfolio → List Signal) (pf : Portfolio) (pm : PeakMap) (d : ℤ)
    (prices : String → Option ℚ) (pf2 : Portfolio) (pm2 : PeakMap)
    (h : process_day sizer default_rule sigGen pf pm d prices = Except.ok (pf2, pm2)) :
    ∃ pf1 pfE exitTxs entryTxs,
      process_exits pf pm d prices = Except.ok (pf1, pm2) ∧
      pf1.transaction_log = pf.transaction_log ++ exitTxs ∧
      (∀ t ∈ exitTxs, t.transaction_type = TxType.reduceTx) ∧
      process_entries sizer default_rule pf1 d prices (sigGen pf1) = Except.ok pfE ∧
      pfE.transaction_log = pf1.transaction_log ++ entryTxs ∧
      (∀ t ∈ entryTxs, t.transaction_type = TxType.openTx) ∧
      pf2 = pfE.record_equity d (calculate_portfolio_value pfE prices) ∧
      pf2.transaction_log = pf.transaction_log ++ (exitTxs ++ entryTxs) := by
  unfold process_day at h
  split at h
  · exact absurd h (by simp)
  · rename_i pf1 pm1 heq1
    dsimp only [] at h
    split at h
    · exact absurd h (by simp)
    · rename_i pfE heq2
      simp only [Except.ok.injEq, Prod.mk.injEq] at h
      obtain ⟨hpf2, hpm2⟩ := h
      subst hpm2
      obtain ⟨exitTxs, hlog1, hty1⟩ := process_exits_log heq1
      obtain ⟨entryTxs, hlog2, hty2⟩ := process_entries_go_log sizer default_rule d
        prices _ _ _ heq2
      refine ⟨pf1, pfE, exitTxs, entryTxs, heq1, hlog1, hty1, heq2, hlog2, hty2,
        hpf2.symm, ?_⟩
      rw [← hpf2]
      show pfE.transaction_log = pf.transaction_log ++ (exitTxs ++ entryTxs)
      rw [hlog2, hlog1, List.append_assoc]

/-- C5 witness: a concrete at-capacity day where the time exit frees the
only slot and the day's entry then opens a new position — the day's log
increment is the reduce block followed by the open block. -/
theorem C5_witness :
    ∃ (pf2 : Portfolio) (pm2 : PeakMap) (pf1 pfE : Portfolio)
      (exitTxs entryTxs : List Transaction),
      process_day sizerW ruleT30 sigGenW pfD0 pmEmpty 5 pricesW
        = Except.ok (pf2, pm2) ∧
      pf1.transaction_log = pfD0.transaction_log ++ exitTxs ∧
      (∀ t ∈ exitTxs, t.transaction_type = TxType.reduceTx) ∧
      pfE.transaction_log = pf1.transaction_log ++ entryTxs ∧
      (∀ t ∈ entryTxs, t.transaction_type = TxType.openTx) ∧
      pf2.transaction_log = pfD0.transaction_log ++ (exitTxs ++ entryTxs) := by
  have hok : (process_day sizerW ruleT30 sigGenW pfD0 pmEmpty 5 pricesW).isOk = true := by
    norm_num [process_day, process_exits, collect_exits, execute_exits,
      process_entries, process_entries_go, calculate_portfolio_value,
      Portfolio.record_equity, Portfolio.open_position, Portfolio.close_position,
      Portfolio.reduce_position, Portfolio.add_to_position, Portfolio.round_shares,
      Portfolio.can_open_position, PositionSizer.calculate_shares,
      TransactionCost.calculate_entry_cost, TransactionCost.calculate_exit_value,
      TransactionCost.entryCostVal, TransactionCost.exitValueVal,
      ExitRule.should_exit, ExitRule.should_exit_list, RoundTrip.add_transaction,
      RoundTrip.remaining_shares, RoundTrip.average_entry_price, RoundTrip.total_shares,
      RoundTrip.get_holding_days, TxType.isEntry, TxType.isExit, List.filter,
      lookupRT, updateRT, eraseRT, pfD0, mkPortfolio, pricesW, sigW, sigGenW, sizerW,
      ruleT1, ruleT30, noMeta, zeroTC, pmEmpty, Except.isOk, Except.toBool,
      (by decide : ¬ ("BBB" : String) = "AAPL")]
  cases hday : process_day sizerW ruleT30 sigGenW pfD0 pmEmpty 5 pricesW with
  | error e =>
    rw [hday] at hok
    simp [Except.isOk, Except.toBool] at hok
  | ok v =>
    obtain ⟨pf2, pm2⟩ := v
    obtain ⟨pf1, pfE, exitTxs, entryTxs, _, hlog1, hty1, _, hlog2, hty2, _, hlog⟩ :=
      C5_exits_before_entries sizerW ruleT30 sigGenW pfD0 pmEmpty 5 pricesW pf2 pm2 hday
    exact ⟨pf2, pm2, pf1, pfE, exitTxs, entryTxs, rfl, hlog1, hty1, hlog2, hty2, hlog⟩

end ThatsMyQuant
